import Mathlib

/-!
Verification of the `compress_with_world.py` codec.

Bytes are modelled as `Nat` (well-formedness `< 256` is carried as a
hypothesis where bit-level reasoning needs it).  The cryptographic hash that
derives the 16-entry home table and the gzip transform applied to the extras
pool are external collaborators of the codec; following the specification
they are treated as opaque, so `compress` and `decompress` are parametrised
by the derived `home` table and by the byte-stream transforms `gzC`/`gzD`.

Python `while` loops are translated either as structural recursion on the
consumed list, or with an explicit iteration bound (`fuel`) that is provably
sufficient; fuel exhaustion is a distinguished error that the theorems show
unreachable.
-/

def CHUNK_SIZE : Nat := 18

/-- Zero chunk used by the decoder as a placeholder for extras positions. -/
def zeroChunk : List Nat := List.replicate CHUNK_SIZE 0

/-- Splitting a byte list into `CHUNK_SIZE`-slices, mirroring the Python
comprehension `[d[i:i+CHUNK_SIZE] for i in range(0, len(d), CHUNK_SIZE)]`.
The first argument bounds the iteration count (the list length suffices,
since each step consumes at least one element). -/
def splitChunksF : Nat → List Nat → List (List Nat)
  | _, [] => []
  | 0, _ => []
  | fuel+1, l => l.take CHUNK_SIZE :: splitChunksF fuel (l.drop CHUNK_SIZE)

def splitChunks (l : List Nat) : List (List Nat) := splitChunksF l.length l

/-- Model of `chunk_file`: pad with `(-L) % CHUNK_SIZE` zero bytes and split
into `CHUNK_SIZE`-byte chunks, returning the chunks and the original
length.  The Python negative modulus is mirrored with `Int.emod`. -/
def chunk_file (d : List Nat) : List (List Nat) × Nat :=
  let L := d.length
  let pad := ((-(L : Int)) % (CHUNK_SIZE : Int)).toNat
  ((splitChunks (d ++ List.replicate pad 0)), L)

/-- Python dict `{h: i for i, h in enumerate(home)}` maps a chunk to the
index of its last occurrence in `home`. -/
def lastIdx (home : List (List Nat)) (c : List Nat) : Option Nat :=
  match home with
  | [] => none
  | h :: t =>
    match lastIdx t c with
    | some j => some (j + 1)
    | none => if h = c then some 0 else none

/-- Model of the classification loop in `compress`: each chunk found in the
home dictionary gets its index as Type, otherwise Type 15 and the chunk is
appended to the extras pool (in encounter order). -/
def classify (home : List (List Nat)) : List (List Nat) → List Nat × List (List Nat)
  | [] => ([], [])
  | c :: rest =>
    let r := classify home rest
    match lastIdx home c with
    | some i => (i :: r.1, r.2)
    | none => (15 :: r.1, c :: r.2)

/-! ### Bit writer (model of the nested `write_bits` in `compress`) -/

structure WS where
  buf : List Nat
  bitbuf : Nat
  bitlen : Nat
deriving DecidableEq

/-- Model of the flush loop of `write_bits`:
`while bitlen >= 8: buf.append(bitbuf & 0xFF); bitbuf >>= 8; bitlen -= 8`. -/
def flushW : List Nat → Nat → Nat → List Nat × Nat × Nat
  | buf, bb, bl + 8 => flushW (buf ++ [bb &&& 255]) (bb >>> 8) bl
  | buf, bb, bl => (buf, bb, bl)

/-- Model of `write_bits`: or the masked value into the bit buffer at the
current bit length, then flush whole bytes. -/
def write_bits (st : WS) (value bits : Nat) : WS :=
  let r := flushW st.buf (st.bitbuf ||| (value &&& ((1 <<< bits) - 1)) <<< st.bitlen) (st.bitlen + bits)
  ⟨r.1, r.2.1, r.2.2⟩

/-- Flushing the final partial byte at the end of `compress`:
`if bitlen > 0: out_bits.append(bitbuf & 0xFF)`. -/
def finalizeW (st : WS) : List Nat :=
  st.buf ++ (if st.bitlen > 0 then [st.bitbuf &&& 255] else [])

/-! ### Run splitting (the encoder loop over `rem`) -/

/-- Sub-run records emitted by the encoder's run-splitting loop.  `short` is
the F=0 form, `ext` the F=1 form, and `fb` the defensive `M < 0` fallback
(which emits the same fields as a short form). -/
inductive SubRun
  | short (rm1 : Nat)
  | ext (sm1 m : Nat)
  | fb (sm1 : Nat)
deriving DecidableEq

/-- Number of chunks a sub-run record accounts for. -/
def subConsumed : SubRun → Nat
  | .short rm1 => rm1 + 1
  | .ext sm1 m => (sm1 + 1) * (m + 1)
  | .fb sm1 => sm1 + 1

/-- The run-splitting loop of `compress` as a record producer, with the same
branch arithmetic as the source (`M` computed over `Int` so that the
defensive `M < 0` test is represented faithfully).  Fuel bounds iterations;
`rem` iterations always suffice. -/
def splitRunF : Nat → Nat → List SubRun
  | _, 0 => []
  | 0, _ => []
  | fuel+1, rem =>
    if rem ≤ 8 then [SubRun.short (rem - 1)]
    else
      let small := if rem < 8 then rem else 8
      let M : Int := min 31 ((rem : Int) / (small : Int) - 1)
      if M < 0 then [SubRun.fb (rem - 1)]
      else SubRun.ext (small - 1) M.toNat :: splitRunF fuel (rem - small * (M.toNat + 1))

def splitRun (rem : Nat) : List SubRun := splitRunF rem rem

/-- Bit emission for one sub-run record: 4 bits Type, 1 bit flag, then the
3-bit (and for F=1 additionally 5-bit) length fields. -/
def writeRec (st : WS) (t : Nat) : SubRun → WS
  | .short rm1 => write_bits (write_bits (write_bits st t 4) 0 1) rm1 3
  | .ext sm1 m => write_bits (write_bits (write_bits (write_bits st t 4) 1 1) sm1 3) m 5
  | .fb sm1 => write_bits (write_bits (write_bits st t 4) 0 1) sm1 3

/-- The run-splitting loop of `compress` emitting bits directly, exactly as
the source interleaves the arithmetic with `write_bits` calls. -/
def emitRunF : Nat → WS → Nat → Nat → WS
  | _, st, _, 0 => st
  | 0, st, _, _ => st
  | fuel+1, st, t, rem =>
    if rem ≤ 8 then
      write_bits (write_bits (write_bits st t 4) 0 1) (rem - 1) 3
    else
      let small := if rem < 8 then rem else 8
      let M : Int := min 31 ((rem : Int) / (small : Int) - 1)
      if M < 0 then
        write_bits (write_bits (write_bits st t 4) 0 1) (rem - 1) 3
      else
        let st4 := write_bits (write_bits (write_bits (write_bits st t 4) 1 1) (small - 1) 3) M.toNat 5
        emitRunF fuel st4 t (rem - small * (M.toNat + 1))

def emitRun (st : WS) (t rem : Nat) : WS := emitRunF rem st t rem

/-- Length of the maximal leading run of `t` in `l`, mirroring the inner
`while j < n and types[j] == t: j += 1` scan. -/
def runLen (t : Nat) (l : List Nat) : Nat := (l.takeWhile (fun x => x == t)).length

/-- The outer encoder loop over the Type sequence: find the maximal run at
the current position, emit its sub-runs, continue after the run. -/
def encodeTypesF : Nat → WS → List Nat → WS
  | _, st, [] => st
  | 0, st, _ => st
  | fuel+1, st, t :: rest =>
    let run := 1 + runLen t rest
    encodeTypesF fuel (emitRun st t run) ((t :: rest).drop run)

def encodeTypes (st : WS) (types : List Nat) : WS := encodeTypesF types.length st types

/-- The complete bitstream bytes for a Type sequence: the run-length records
followed by the 9-bit all-ones marker, with the final partial byte flushed. -/
def mkBitstream (types : List Nat) : List Nat :=
  finalizeW (write_bits (encodeTypes ⟨[], 0, 0⟩ types) ((1 <<< 9) - 1) 9)

/-- Little-endian serialisation of `struct.pack` / `int.to_bytes`. -/
def packLE (w n : Nat) : List Nat := (List.range w).map (fun i => (n >>> (8 * i)) &&& 255)

/-- Model of `compress`: chunk the input, classify against the home table,
emit the run-length bitstream, compress the joined extras with the opaque
transform `gzC`, and build the container.  `struct.pack` range errors are
modelled by returning `none`. -/
def compress (home : List (List Nat)) (gzC : List Nat → List Nat) (input : List Nat) : Option (List Nat) :=
  let cf := chunk_file input
  let cl := classify home cf.1
  let bits := mkBitstream cl.1
  let blob := if cl.2 = [] then [] else gzC cl.2.flatten
  if cf.1.length < 2 ^ 32 ∧ cf.2 < 2 ^ 64 ∧ blob.length < 2 ^ 32 then
    some (packLE 4 cf.1.length ++ packLE 8 cf.2 ++ bits ++ packLE 4 blob.length ++ blob)
  else none

/-! ### Bit reader and `decompress` -/

inductive DErr
  | tooShort
  | truncated
  | missingExtras
  | fuelOut
deriving DecidableEq

/-- Reader state.  The byte cursor of the Python `BitReader` is represented
by the remaining suffix `rest` of the input (`rest = data[pos:]`). -/
structure BRS where
  rest : List Nat
  bitbuf : Nat
  bitlen : Nat
deriving DecidableEq

/-- Model of `BitReader.read_bits`: load bytes LSB-first until `n` bits are
buffered (failing with a truncated-stream error if the source is exhausted),
then split off the low `n` bits. -/
def read_bits : List Nat → Nat → Nat → Nat → Except DErr (Nat × List Nat × Nat × Nat)
  | rest, bb, bl, n =>
    if bl < n then
      match rest with
      | [] => .error .truncated
      | byte :: r => read_bits r (bb ||| byte <<< bl) (bl + 8) n
    else .ok (bb &&& ((1 <<< n) - 1), rest, bb >>> n, bl - n)

def BRS.read (br : BRS) (n : Nat) : Except DErr (Nat × BRS) :=
  match read_bits br.rest br.bitbuf br.bitlen n with
  | .error e => .error e
  | .ok (v, r, bb, bl) => .ok (v, ⟨r, bb, bl⟩)

/-- One record of the decode loop: 4-bit Type, 1-bit flag, then either the
3-bit short run field or the 3+5-bit extended fields; returns the Type and
the expanded run length. -/
def readRecord (br : BRS) : Except DErr (Nat × Nat × BRS) := do
  let (t, br1) ← br.read 4
  let (F, br2) ← br1.read 1
  if F = 0 then
    let (rm1, br3) ← br2.read 3
    pure (t, rm1 + 1, br3)
  else
    let (sm1, br3) ← br2.read 3
    let (M, br4) ← br3.read 5
    pure (t, (sm1 + 1) * (M + 1), br4)

/-- The Type-15 expansion: for each copy record the current output length as
an extras position and append a zero chunk. -/
def addZeros : Nat → List Nat → List Nat → List Nat × List Nat
  | 0, restored, positions => (restored, positions)
  | k+1, restored, positions => addZeros k (restored ++ zeroChunk) (positions ++ [restored.length])

/-- The dictionary expansion: append `run` copies of the home entry. -/
def addHome (chunk : List Nat) : Nat → List Nat → List Nat
  | 0, restored => restored
  | k+1, restored => addHome chunk k (restored ++ chunk)

/-- The decode expansion loop `while expanded < chunks_count`.  Each
iteration expands at least one chunk, so `count` iterations of fuel always
suffice; `fuelOut` is proved unreachable. -/
def expandLoopF (home : List (List Nat)) (count : Nat) : Nat → BRS → List Nat → List Nat → Nat → Except DErr (List Nat × List Nat × BRS)
  | fuel, br, restored, positions, expanded =>
    if expanded ≥ count then .ok (restored, positions, br)
    else
      match fuel with
      | 0 => .error .fuelOut
      | fuel+1 =>
        match readRecord br with
        | .error e => .error e
        | .ok (t, run, br2) =>
          if t = 15 then
            let rp := addZeros run restored positions
            expandLoopF home count fuel br2 rp.1 rp.2 (expanded + run)
          else
            expandLoopF home count fuel br2 (addHome (home.getD t []) run restored) positions (expanded + run)

/-- Bits still available to a reader. -/
def availBits (br : BRS) : Nat := br.bitlen + 8 * br.rest.length

/-- The 9-ones end-marker scan: read single bits, counting consecutive ones
and resetting on a zero; a truncated-stream error is caught and the current
reader state returned (the `try/except: pass` in the source).  Fuel bounds
iterations; `availBits + 1` always suffices. -/
def scanMarkerF : Nat → BRS → Nat → BRS
  | fuel, br, ones =>
    if ones ≥ 9 then br
    else
      match fuel with
      | 0 => br
      | fuel+1 =>
        match br.read 1 with
        | .error _ => br
        | .ok (b, br2) => scanMarkerF fuel br2 (if b = 1 then ones + 1 else 0)

def scanMarker (br : BRS) : BRS := scanMarkerF (availBits br + 1) br 0

/-- Little-endian deserialisation of `struct.unpack` / `int.from_bytes`. -/
def leVal (l : List Nat) : Nat := l.foldr (fun b acc => b + 256 * acc) 0

/-- Python bytearray slice assignment `out[p:p+CHUNK_SIZE] = chunk`. -/
def splice (out : List Nat) (p : Nat) (chunk : List Nat) : List Nat :=
  out.take p ++ chunk ++ out.drop (p + CHUNK_SIZE)

/-- The extras patch loop: assign decompressed chunks to the recorded
positions in order; when the chunk iterator is exhausted, fall back to the
zero chunk (`except StopIteration`). -/
def patch : List Nat → List (List Nat) → List Nat → List Nat
  | [], _, out => out
  | p :: ps, [], out => patch ps [] (splice out p zeroChunk)
  | p :: ps, c :: cs, out => patch ps cs (splice out p c)

/-- Model of `decompress`: parse the 12-byte header, run the expansion loop,
scan past the end marker, read the extras length and blob from the reader's
byte position, decompress the blob with the opaque transform `gzD`, patch
the recorded positions, and trim to the original length. -/
def decompress (home : List (List Nat)) (gzD : List Nat → List Nat) (data : List Nat) : Except DErr (List Nat) :=
  if data.length < 12 then .error .tooShort
  else
    let count := leVal (data.take 4)
    let L := leVal ((data.drop 4).take 8)
    let br0 : BRS := ⟨data.drop 12, 0, 0⟩
    match expandLoopF home count count br0 [] [] 0 with
    | .error e => .error e
    | .ok (restored, positions, br1) =>
      let br2 := scanMarker br1
      if br2.rest.length < 4 then .error .missingExtras
      else
        let elen := leVal (br2.rest.take 4)
        let blob := (br2.rest.drop 4).take elen
        let extras := if blob = [] then [] else gzD blob
        let restored2 := if positions = [] then restored
          else patch positions (splitChunks extras) restored
        .ok (restored2.take L)

/-! ### Synthetic-test harnesses (spec section 8) -/

/-- The decode expansion loop recording the Type per position instead of
materialising chunks: the Type-level decoder used by the run-encoding
exactness property. -/
def decodeTypesF (count : Nat) : Nat → BRS → List Nat → Nat → Except DErr (List Nat)
  | fuel, br, acc, expanded =>
    if expanded ≥ count then .ok acc
    else
      match fuel with
      | 0 => .error .fuelOut
      | fuel+1 =>
        match readRecord br with
        | .error e => .error e
        | .ok (t, run, br2) => decodeTypesF count fuel br2 (acc ++ List.replicate run t) (expanded + run)

def decodeTypes (bytes : List Nat) (count : Nat) : Except DErr (List Nat) :=
  decodeTypesF count count ⟨bytes, 0, 0⟩ [] 0

/-- Writing a sequence of (value, width) pairs. -/
def writeAll (st : WS) (ps : List (Nat × Nat)) : WS :=
  ps.foldl (fun s p => write_bits s p.1 p.2) st

/-- Reading back a sequence of widths from a byte source. -/
def readAllF : List Nat → BRS → Except DErr (List Nat)
  | [], _ => .ok []
  | n :: ns, br =>
    match br.read n with
    | .error e => .error e
    | .ok (v, br2) =>
      match readAllF ns br2 with
      | .error e => .error e
      | .ok vs => .ok (v :: vs)

def readAll (bytes : List Nat) (widths : List Nat) : Except DErr (List Nat) :=
  readAllF widths ⟨bytes, 0, 0⟩

/-- A concrete 16-entry home table (the hash derivation is opaque, so any
table of 18-byte pairwise-distinct entries instantiates it). -/
def testHome : List (List Nat) := (List.range 16).map (fun i => List.replicate CHUNK_SIZE (i + 1))

/-! ### Bit-sequence semantics used in the proofs -/

/-- Low `n` bits of a natural number, least-significant first. -/
def natBits : Nat → Nat → List Bool
  | _, 0 => []
  | v, n+1 => (v % 2 == 1) :: natBits (v / 2) n

/-- Value of an LSB-first bit sequence. -/
def bitsVal : List Bool → Nat
  | [] => 0
  | b :: bs => (if b then 1 else 0) + 2 * bitsVal bs

/-- Bit sequence of a byte list, LSB-first within each byte. -/
def bytesBits (l : List Nat) : List Bool := (l.map (fun b => natBits b 8)).flatten

/-- Bits emitted so far by a writer state. -/
def wsBits (st : WS) : List Bool := bytesBits st.buf ++ natBits st.bitbuf st.bitlen

/-- Writer invariant: bit buffer holds fewer than 8 valid bits and the
emitted bytes are in range. -/
def wsInv (st : WS) : Prop :=
  st.bitbuf < 2 ^ st.bitlen ∧ st.bitlen < 8 ∧ ∀ b ∈ st.buf, b < 256

/-- Bits still unread by a reader state. -/
def brBits (br : BRS) : List Bool := natBits br.bitbuf br.bitlen ++ bytesBits br.rest

/-- Reader invariant. -/
def brInv (br : BRS) : Prop := br.bitbuf < 2 ^ br.bitlen ∧ ∀ b ∈ br.rest, b < 256

/-- Bit sequence of one sub-run record. -/
def recBits (t : Nat) : SubRun → List Bool
  | .short rm1 => natBits t 4 ++ natBits 0 1 ++ natBits rm1 3
  | .ext sm1 m => natBits t 4 ++ natBits 1 1 ++ natBits sm1 3 ++ natBits m 5
  | .fb sm1 => natBits t 4 ++ natBits 0 1 ++ natBits sm1 3

/-- Field-width constraints a record must satisfy for its bits to decode
back to itself; the defensive fallback never occurs. -/
def recWF : SubRun → Prop
  | .short rm1 => rm1 < 8
  | .ext sm1 m => sm1 = 7 ∧ m < 32
  | .fb _ => False

/-- Bit sequence of a list of records sharing one Type. -/
def runBits (t : Nat) (recs : List SubRun) : List Bool := (recs.map (recBits t)).flatten

/-- Bit sequence the encoder produces for a whole Type sequence. -/
def typesBits : List Nat → List Bool
  | [] => []
  | t :: rest =>
    runBits t (splitRun (1 + runLen t rest)) ++ typesBits ((t :: rest).drop (1 + runLen t rest))
termination_by ts => ts.length
decreasing_by simp [List.length_drop]

/-- Bit sequence of a (value, width) pair list. -/
def psBits (ps : List (Nat × Nat)) : List Bool := (ps.map (fun p => natBits p.1 p.2)).flatten

/-- Decidable equality for decode results, used by the concrete checks. -/
instance exceptDecEq {e r : Type} [DecidableEq e] [DecidableEq r] : DecidableEq (Except e r) := fun a b =>
  match a, b with
  | .ok x, .ok y =>
    if h : x = y then isTrue (by rw [h]) else isFalse (by intro hh; cases hh; exact h rfl)
  | .error x, .error y =>
    if h : x = y then isTrue (by rw [h]) else isFalse (by intro hh; cases hh; exact h rfl)
  | .ok _, .error _ => isFalse (by intro hh; cases hh)
  | .error _, .ok _ => isFalse (by intro hh; cases hh)

/-- Whether a decode result is a success. -/
def isOkE : Except DErr (List Nat) → Bool
  | .ok _ => true
  | .error _ => false

/-- Chunk a decoded Type expands to: the home entry, or the zero
placeholder for Type 15. -/
def chunkFor (home : List (List Nat)) (t : Nat) : List Nat :=
  if t = 15 then zeroChunk else home.getD t []

/-- Expected expansion output for a Type sequence. -/
def chunksOf (home : List (List Nat)) (ts : List Nat) : List Nat :=
  (ts.map (chunkFor home)).flatten

/-- Byte offsets the decoder records for the Type-15 positions of a Type
sequence, starting from a given output length. -/
def posOf : List Nat → Nat → List Nat
  | [], _ => []
  | t :: ts, base =>
    if t = 15 then base :: posOf ts (base + CHUNK_SIZE) else posOf ts (base + CHUNK_SIZE)

/-- The Type `classify` assigns to a single chunk. -/
def typeOf (home : List (List Nat)) (c : List Nat) : Nat :=
  match lastIdx home c with
  | some i => i
  | none => 15

/-- A concrete injective byte transform standing in for the opaque gzip
compressor: unary-encode each value as that many 1-bytes and a 0-byte. -/
def unaryEnc (b : List Nat) : List Nat := b.flatMap (fun n => List.replicate n 1 ++ [0])

/-- Left inverse of `unaryEnc`, standing in for gzip decompression. -/
def unaryDec : List Nat → Nat → List Nat
  | [], _ => []
  | x :: r, acc => if x = 0 then acc :: unaryDec r 0 else unaryDec r (acc + 1)

/-! ### Chunker lemmas -/

theorem splitChunksF_flatten : ∀ fuel l, l.length ≤ fuel → (splitChunksF fuel l).flatten = l := by
  intro fuel
  induction fuel with
  | zero =>
    intro l hl
    have : l = [] := List.eq_nil_of_length_eq_zero (Nat.le_zero.mp hl)
    subst this; rfl
  | succ n ih =>
    intro l hl
    cases l with
    | nil => rfl
    | cons x xs =>
      simp only [splitChunksF, List.flatten_cons]
      rw [ih]
      · exact List.take_append_drop _ _
      · simp only [List.length_drop, CHUNK_SIZE, List.length_cons]
        simp at hl
        omega

theorem splitChunksF_lengths : ∀ fuel l, l.length ≤ fuel → CHUNK_SIZE ∣ l.length →
    ∀ c ∈ splitChunksF fuel l, c.length = CHUNK_SIZE := by
  intro fuel
  induction fuel with
  | zero =>
    intro l hl _
    have : l = [] := List.eq_nil_of_length_eq_zero (Nat.le_zero.mp hl)
    subst this; intro c hc; cases hc
  | succ n ih =>
    intro l hl hdvd
    cases l with
    | nil => intro c hc; cases hc
    | cons x xs =>
      have hlen : CHUNK_SIZE ≤ (x :: xs).length := by
        rcases hdvd with ⟨k, hk⟩
        rcases k with _ | k
        · simp at hk
        · simp [hk, CHUNK_SIZE, Nat.mul_succ]
      simp only [splitChunksF]
      intro c hc
      rcases List.mem_cons.mp hc with hc | hc
      · subst hc
        simp only [List.length_take]
        omega
      · refine ih _ ?_ ?_ _ hc
        · simp only [List.length_drop, CHUNK_SIZE, List.length_cons]
          simp at hl
          omega
        · simp only [List.length_drop]
          exact Nat.dvd_sub hlen hdvd (Nat.dvd_refl CHUNK_SIZE)

theorem splitChunks_flatten (l : List Nat) : (splitChunks l).flatten = l :=
  splitChunksF_flatten _ _ (Nat.le_refl _)

/-- C9: the chunker records the original length, appends exactly
`(-L) mod CHUNK_SIZE` zero bytes, splits into chunks of exactly
`CHUNK_SIZE` bytes, yields no chunks for empty input, and the pad is zero
exactly when the length is a multiple of `CHUNK_SIZE`. -/
theorem C9_chunker (d : List Nat) :
    (chunk_file d).2 = d.length ∧
    (chunk_file d).1.flatten = d ++ List.replicate ((-(d.length : Int)) % (CHUNK_SIZE : Int)).toNat 0 ∧
    (∀ c ∈ (chunk_file d).1, c.length = CHUNK_SIZE) ∧
    (d.length = 0 → (chunk_file d).1 = []) ∧
    (((-(d.length : Int)) % (CHUNK_SIZE : Int)).toNat = 0 ↔ CHUNK_SIZE ∣ d.length) := by
  have hdvd : CHUNK_SIZE ∣ d.length + ((-(d.length : Int)) % (CHUNK_SIZE : Int)).toNat := by
    simp only [CHUNK_SIZE]
    omega
  refine ⟨rfl, splitChunks_flatten _, ?_, ?_, ?_⟩
  · intro c hc
    refine splitChunksF_lengths _ _ (Nat.le_refl _) ?_ c hc
    simpa using hdvd
  · intro h
    have hd : d = [] := List.eq_nil_of_length_eq_zero h
    subst hd
    rfl
  · simp only [CHUNK_SIZE]
    omega

theorem C9_chunker_witness :
    (chunk_file (List.replicate 20 5)).2 = 20 ∧
    (chunk_file (List.replicate 20 5)).1.flatten =
      List.replicate 20 5 ++ List.replicate ((-(20 : Int)) % (CHUNK_SIZE : Int)).toNat 0 ∧
    (chunk_file []).1 = [] :=
  ⟨(C9_chunker (List.replicate 20 5)).1, (C9_chunker (List.replicate 20 5)).2.1,
    (C9_chunker []).2.2.2.1 rfl⟩

/-! ### Run-splitting characterisation -/

theorem splitRunF_wf : ∀ fuel rem, rem ≤ fuel →
    (((splitRunF fuel rem).map subConsumed).sum = rem ∧ ∀ r ∈ splitRunF fuel rem, recWF r) := by
  intro fuel
  induction fuel with
  | zero =>
    intro rem h
    have h0 : rem = 0 := Nat.le_zero.mp h
    subst h0
    exact ⟨rfl, by intro r hr; cases hr⟩
  | succ n ih =>
    intro rem h
    cases rem with
    | zero => exact ⟨rfl, by intro r hr; cases hr⟩
    | succ k =>
      by_cases h8 : k + 1 ≤ 8
      · have he : splitRunF (n+1) (k+1) = [SubRun.short (k+1-1)] := by
          simp only [splitRunF]
          rw [if_pos h8]
        rw [he]
        refine ⟨by simp [subConsumed], ?_⟩
        intro r hr
        simp at hr
        subst hr
        simp only [recWF]
        omega
      · have hnot : ¬ ((k+1 : Nat) < 8) := by omega
        have he : splitRunF (n+1) (k+1) =
            SubRun.ext (8 - 1) (min 31 (((k+1 : Nat) : Int) / ((8 : Nat) : Int) - 1)).toNat ::
              splitRunF n ((k+1) - 8 * ((min 31 (((k+1 : Nat) : Int) / ((8 : Nat) : Int) - 1)).toNat + 1)) := by
          simp only [splitRunF]
          rw [if_neg h8, if_neg hnot, if_neg]
          omega
        set Mt := (min 31 (((k+1 : Nat) : Int) / ((8 : Nat) : Int) - 1)).toNat with hMt
        have hMt1 : 1 ≤ Mt + 1 ∧ Mt + 1 ≤ 32 ∧ 8 * (Mt + 1) ≤ k + 1 := by
          simp only [hMt]
          omega
        have hrec := ih ((k+1) - 8 * (Mt + 1)) (by omega)
        rw [he]
        constructor
        · simp only [List.map_cons, List.sum_cons, subConsumed, hrec.1]
          omega
        · intro r hr
          rcases List.mem_cons.mp hr with hr | hr
          · subst hr
            exact ⟨by norm_num, by omega⟩
          · exact hrec.2 r hr

/-- C10: the encoder's run-splitting loop never takes the defensive
`M < 0` fallback, every extended-form sub-run has `small_run = 8`
(3-bit field 7), and every emitted sub-run consumes between 1 and 256
chunks. -/
theorem C10_run_splitting (rem : Nat) : ∀ r ∈ splitRun rem,
    (∀ s, r ≠ SubRun.fb s) ∧ 1 ≤ subConsumed r ∧ subConsumed r ≤ 256 ∧
      (∀ s m, r = SubRun.ext s m → s = 7) := by
  intro r hr
  have hwf := (splitRunF_wf rem rem (Nat.le_refl _)).2 r hr
  cases r with
  | short a =>
    simp only [recWF] at hwf
    refine ⟨?_, ?_, ?_, ?_⟩
    · intro s h; cases h
    · simp [subConsumed]
    · simp [subConsumed]; omega
    · intro s m h; cases h
  | ext s m =>
    simp only [recWF] at hwf
    refine ⟨?_, ?_, ?_, ?_⟩
    · intro a h; cases h
    · simp only [subConsumed]
      exact Nat.one_le_iff_ne_zero.mpr (by positivity)
    · simp only [subConsumed, hwf.1]
      omega
    · intro a b h
      cases h
      exact hwf.1
  | fb a => exact absurd hwf (by simp [recWF])

theorem C10_run_splitting_witness :
    SubRun.ext 7 31 ∈ splitRun 257 ∧
    1 ≤ subConsumed (SubRun.ext 7 31) ∧ subConsumed (SubRun.ext 7 31) ≤ 256 := by
  have h := C10_run_splitting 257 (SubRun.ext 7 31) (by decide)
  exact ⟨by decide, h.2.1, h.2.2.1⟩

/-! ### Concrete failing inputs for the home-table index-15 slip -/

/-- C1: counterexample to the universal round trip.  The 18-byte input
equal to `HomeTable[15]` is classified as Type 15 through the dictionary
(index 15 is in `home_index`), so its bytes are never added to the extras
pool; decompression zero-fills the position and returns 18 zero bytes, not
the original input. -/
theorem C1_roundtrip_failure :
    testHome.getD 15 [] = List.replicate 18 16 ∧
    compress testHome id (List.replicate 18 16) =
      some [1,0,0,0, 18,0,0,0,0,0,0,0, 15,255,1, 0,0,0,0] ∧
    decompress testHome id [1,0,0,0, 18,0,0,0,0,0,0,0, 15,255,1, 0,0,0,0] =
      .ok (List.replicate 18 0) ∧
    (List.replicate 18 0 : List Nat) ≠ List.replicate 18 16 := by
  refine ⟨by decide, by decide, ?_, by decide⟩
  have h1 : expandLoopF testHome 1 1 ⟨[15,255,1,0,0,0,0], 0, 0⟩ [] [] 0 =
      .ok (List.replicate 18 0, [0], ⟨[255,1,0,0,0,0], 0, 0⟩) := by decide
  have h2 : scanMarker ⟨[255,1,0,0,0,0], 0, 0⟩ = ⟨[0,0,0,0], 0, 7⟩ := by decide
  have h3 : patch [0] (splitChunks []) (List.replicate 18 0) = List.replicate 18 0 := by decide
  simp only [decompress]
  norm_num [leVal]
  rw [h1]
  simp only [h2]
  norm_num
  rw [h3]
  simp

/-- C2: the chunk equal to `HomeTable[15]` is byte-identical to a home
table entry, yet `classify` assigns it Type 15 and does not append it to
the extras pool — refuting both directions of the claimed invariant. -/
theorem C2_type15_not_pooled :
    (List.replicate 18 16 : List Nat) ∈ testHome ∧
    classify testHome [List.replicate 18 16] = ([15], []) := by decide

/-- C5: the 36-byte input made of two copies of `HomeTable[3]` compresses
to a container whose bitstream is the single byte `0x23` (one short-form
record: Type 3, run 2) followed by the marker bytes, with a zero extras
length and no blob; the bitstream decodes to a single record of Type 3 and
run 2; and decompression restores the 36 bytes exactly. -/
theorem C5_concrete_scenario :
    testHome.getD 3 [] = List.replicate 18 4 ∧
    classify testHome (chunk_file (List.replicate 18 4 ++ List.replicate 18 4)).1 = ([3, 3], []) ∧
    compress testHome id (List.replicate 18 4 ++ List.replicate 18 4) =
      some [2,0,0,0, 36,0,0,0,0,0,0,0, 35,255,1, 0,0,0,0] ∧
    readRecord ⟨[35,255,1,0,0,0,0], 0, 0⟩ = .ok (3, 2, ⟨[255,1,0,0,0,0], 0, 0⟩) ∧
    decodeTypes [35,255,1] 2 = .ok [3, 3] ∧
    decompress testHome id [2,0,0,0, 36,0,0,0,0,0,0,0, 35,255,1, 0,0,0,0] =
      .ok (List.replicate 18 4 ++ List.replicate 18 4) := by
  refine ⟨by decide, by decide, by decide, by decide, by decide, ?_⟩
  have h1 : expandLoopF testHome 2 2 ⟨[35,255,1,0,0,0,0], 0, 0⟩ [] [] 0 =
      .ok (List.replicate 18 4 ++ List.replicate 18 4, [], ⟨[255,1,0,0,0,0], 0, 0⟩) := by decide
  have h2 : scanMarker ⟨[255,1,0,0,0,0], 0, 0⟩ = ⟨[0,0,0,0], 0, 7⟩ := by decide
  simp only [decompress]
  norm_num [leVal]
  rw [h1]
  simp only [h2]
  norm_num

/-! ### Error analysis of the decode loop -/

theorem read_bits_error : ∀ rest bb bl n e,
    read_bits rest bb bl n = .error e → e = DErr.truncated := by
  intro rest
  induction rest with
  | nil =>
    intro bb bl n e h
    simp only [read_bits] at h
    split at h
    · cases h; rfl
    · cases h
  | cons b r ih =>
    intro bb bl n e h
    simp only [read_bits] at h
    split at h
    · exact ih _ _ _ _ h
    · cases h

theorem BRS_read_error (br : BRS) (n : Nat) (e : DErr) :
    br.read n = .error e → e = DErr.truncated := by
  intro h
  simp only [BRS.read] at h
  split at h
  · cases h
    exact read_bits_error _ _ _ _ _ (by assumption)
  · cases h

theorem readRecord_error (br : BRS) (e : DErr) :
    readRecord br = .error e → e = DErr.truncated := by
  intro h
  simp only [readRecord, bind, Except.bind] at h
  split at h
  · cases h
    exact BRS_read_error _ _ _ (by assumption)
  · split at h
    · cases h
      exact BRS_read_error _ _ _ (by assumption)
    · split at h
      · split at h
        · cases h
          exact BRS_read_error _ _ _ (by assumption)
        · cases h
      · split at h
        · cases h
          exact BRS_read_error _ _ _ (by assumption)
        · split at h
          · cases h
            exact BRS_read_error _ _ _ (by assumption)
          · cases h

theorem readRecord_run_pos (br br2 : BRS) (t run : Nat) :
    readRecord br = .ok (t, run, br2) → 1 ≤ run := by
  intro h
  simp only [readRecord, bind, Except.bind] at h
  split at h
  · cases h
  · split at h
    · cases h
    · split at h
      · split at h
        · cases h
        · cases h
          omega
      · split at h
        · cases h
        · split at h
          · cases h
          · cases h
            exact Nat.one_le_iff_ne_zero.mpr (by positivity)

theorem expandLoopF_error (home : List (List Nat)) (count : Nat) :
    ∀ fuel br restored positions expanded e,
      count - expanded ≤ fuel →
      expandLoopF home count fuel br restored positions expanded = .error e →
      e = DErr.truncated := by
  intro fuel
  induction fuel with
  | zero =>
    intro br restored positions expanded e hfuel h
    simp only [expandLoopF] at h
    split at h
    · cases h
    · omega
  | succ n ih =>
    intro br restored positions expanded e hfuel h
    rw [expandLoopF] at h
    split at h
    · cases h
    · rename_i hlt
      cases hrec : readRecord br with
      | error e2 =>
        rw [hrec] at h
        cases h
        exact readRecord_error _ _ hrec
      | ok v =>
        obtain ⟨t, run, br2⟩ := v
        have hpos := readRecord_run_pos _ _ _ _ hrec
        rw [hrec] at h
        dsimp only at h
        split at h
        · exact ih _ _ _ _ _ (by omega) h
        · exact ih _ _ _ _ _ (by omega) h

/-- C6: whenever the run-expansion phase of `decompress` fails (the
bitstream cannot satisfy the header's chunk count), the failure is the
truncated-stream error — not fuel exhaustion and not any other error —
and `decompress` as a whole returns exactly that error, producing no
output. -/
theorem C6_truncation_fails (home : List (List Nat)) (gzD : List Nat → List Nat)
    (data : List Nat) (e : DErr) (h12 : ¬ (data.length < 12))
    (hexp : expandLoopF home (leVal (data.take 4)) (leVal (data.take 4)) ⟨data.drop 12, 0, 0⟩ [] [] 0 = .error e) :
    e = DErr.truncated ∧ decompress home gzD data = .error DErr.truncated := by
  have he : e = DErr.truncated :=
    expandLoopF_error home (leVal (data.take 4)) (leVal (data.take 4))
      ⟨data.drop 12, 0, 0⟩ [] [] 0 e (by omega) hexp
  subst he
  refine ⟨rfl, ?_⟩
  simp only [decompress, if_neg h12]
  rw [hexp]

theorem C6_truncation_fails_witness :
    decompress testHome id [1,0,0,0, 18,0,0,0,0,0,0,0] = .error DErr.truncated ∧
    expandLoopF testHome 1 1 ⟨[], 0, 0⟩ [] [] 0 = .error DErr.truncated :=
  ⟨(C6_truncation_fails testHome id [1,0,0,0, 18,0,0,0,0,0,0,0] DErr.truncated
      (by decide) (by decide)).2,
    by decide⟩

/-- C7 counterexample: a container whose chunk count (zero) is already
satisfied and whose input is exhausted during the 9-ones marker scan.  The
scan itself returns without error, but `decompress` then fails with the
missing-extras-length error, so "decoding does not fail" is refuted. -/
theorem C7_marker_exhaustion_cex :
    expandLoopF testHome 0 0 ⟨[], 0, 0⟩ [] [] 0 = .ok ([], [], ⟨[], 0, 0⟩) ∧
    scanMarker ⟨[], 0, 0⟩ = ⟨[], 0, 0⟩ ∧
    decompress testHome id [0,0,0,0, 0,0,0,0,0,0,0,0] = .error DErr.missingExtras := by
  refine ⟨by decide, by decide, ?_⟩
  have h1 : expandLoopF testHome 0 0 ⟨[], 0, 0⟩ [] [] 0 = .ok ([], [], ⟨[], 0, 0⟩) := by decide
  simp only [decompress]
  norm_num [leVal]
  rw [h1]
  decide

/-- C7 (amended): the marker scan never raises; after it, `decompress`
reads the extras-length field at the byte position the reader reached.
When the input was exhausted during the scan that position is the end of
the input, fewer than 4 bytes remain, and the decode then fails with the
missing-extras-length error (not a marker or truncation error). -/
theorem C7_marker_exhaustion (home : List (List Nat)) (gzD : List Nat → List Nat)
    (data restored positions : List Nat) (br1 : BRS)
    (h12 : ¬ (data.length < 12))
    (hexp : expandLoopF home (leVal (data.take 4)) (leVal (data.take 4)) ⟨data.drop 12, 0, 0⟩ [] [] 0 = .ok (restored, positions, br1))
    (hrest : (scanMarker br1).rest.length < 4) :
    decompress home gzD data = .error DErr.missingExtras := by
  simp only [decompress, if_neg h12]
  rw [hexp]
  simp [hrest]

theorem C7_marker_exhaustion_witness :
    decompress testHome id [0,0,0,0, 0,0,0,0,0,0,0,0, 255] = .error DErr.missingExtras :=
  C7_marker_exhaustion testHome id [0,0,0,0, 0,0,0,0,0,0,0,0, 255] [] [] ⟨[255], 0, 0⟩
    (by decide) (by decide) (by decide)

/-! ### Extras shortfall -/

theorem patch_nil_replicate : ∀ ps out,
    patch ps [] out = patch ps (List.replicate ps.length zeroChunk) out := by
  intro ps
  induction ps with
  | nil => intro out; rfl
  | cons p ps ih =>
    intro out
    simp only [patch, List.length_cons, List.replicate_succ]
    exact ih _

/-- C8: when the decompressed extras pool yields fewer chunks than the
recorded Type-15 positions, the patch loop behaves exactly as if the
missing pieces were explicit 18-byte zero chunks; and whenever the earlier
phases of `decompress` succeed, the extras patching completes with a
successful result regardless of any shortfall. -/
theorem C8_extras_shortfall :
    (∀ ps pieces out, pieces.length < ps.length →
      patch ps pieces out =
        patch ps (pieces ++ List.replicate (ps.length - pieces.length) zeroChunk) out) ∧
    (∀ home gzD (data restored positions : List Nat) (br1 : BRS),
      ¬ (data.length < 12) →
      expandLoopF home (leVal (data.take 4)) (leVal (data.take 4)) ⟨data.drop 12, 0, 0⟩ [] [] 0 = .ok (restored, positions, br1) →
      ¬ ((scanMarker br1).rest.length < 4) →
      isOkE (decompress home gzD data) = true) := by
  constructor
  · intro ps
    induction ps with
    | nil => intro pieces out h; simp at h
    | cons p ps ih =>
      intro pieces out h
      cases pieces with
      | nil =>
        simp only [patch, List.nil_append, List.length_cons, List.length_nil, Nat.sub_zero,
          List.replicate_succ]
        exact patch_nil_replicate _ _
      | cons c cs =>
        simp only [patch, List.cons_append, List.length_cons]
        rw [show ps.length + 1 - (cs.length + 1) = ps.length - cs.length by omega]
        exact ih cs _ (by simpa using h)
  · intro home gzD data restored positions br1 h12 hexp hrest
    simp only [decompress, if_neg h12]
    rw [hexp]
    simp [hrest, isOkE]

theorem C8_extras_shortfall_witness :
    (patch [0] [] (List.replicate 18 7) =
      patch [0] ([] ++ List.replicate 1 zeroChunk) (List.replicate 18 7)) ∧
    isOkE (decompress testHome id [1,0,0,0, 18,0,0,0,0,0,0,0, 15,255,1, 0,0,0,0]) = true :=
  ⟨C8_extras_shortfall.1 [0] [] (List.replicate 18 7) (by decide),
    C8_extras_shortfall.2 testHome id [1,0,0,0, 18,0,0,0,0,0,0,0, 15,255,1, 0,0,0,0]
      (List.replicate 18 0) [0] ⟨[255,1,0,0,0,0], 0, 0⟩ (by decide) (by decide) (by decide)⟩

/-! ### Bit-sequence lemmas -/

theorem natBits_length : ∀ n v, (natBits v n).length = n := by
  intro n
  induction n with
  | zero => intro v; rfl
  | succ n ih => intro v; simp [natBits, ih]

theorem natBits_mod : ∀ n v, natBits (v % 2 ^ n) n = natBits v n := by
  intro n
  induction n with
  | zero => intro v; rfl
  | succ n ih =>
    intro v
    simp only [natBits, pow_succ']
    have h1 : v % (2 * 2 ^ n) % 2 = v % 2 := Nat.mod_mod_of_dvd v (dvd_mul_right 2 (2 ^ n))
    have h2 : v % (2 * 2 ^ n) / 2 = v / 2 % 2 ^ n := Nat.mod_mul_right_div_self v 2 (2 ^ n)
    rw [h1, h2, ih]

theorem natBits_split : ∀ a b v, natBits v (a + b) = natBits v a ++ natBits (v / 2 ^ a) b := by
  intro a
  induction a with
  | zero => intro b v; simp [natBits]
  | succ a ih =>
    intro b v
    rw [show a + 1 + b = (a + b) + 1 by omega]
    simp only [natBits]
    rw [ih b (v / 2), Nat.div_div_eq_div_mul, mul_comm (2:Nat), ← pow_succ]
    simp

theorem bitsVal_natBits : ∀ n v, bitsVal (natBits v n) = v % 2 ^ n := by
  intro n
  induction n with
  | zero => intro v; simp [natBits, bitsVal, Nat.mod_one]
  | succ n ih =>
    intro v
    simp only [natBits, bitsVal, ih]
    rw [pow_succ', Nat.mod_mul]
    rcases Nat.mod_two_eq_zero_or_one v with h | h <;> simp [h]

theorem natBits_zero_val : ∀ n, natBits 0 n = List.replicate n false := by
  intro n
  induction n with
  | zero => rfl
  | succ n ih => simp [natBits, ih, List.replicate_succ]

theorem bytesBits_append (l1 l2 : List Nat) :
    bytesBits (l1 ++ l2) = bytesBits l1 ++ bytesBits l2 := by
  simp [bytesBits]

theorem bytesBits_cons (b : Nat) (l : List Nat) :
    bytesBits (b :: l) = natBits b 8 ++ bytesBits l := by
  simp [bytesBits]

theorem bytesBits_length (l : List Nat) : (bytesBits l).length = 8 * l.length := by
  induction l with
  | nil => rfl
  | cons b r ih =>
    rw [bytesBits_cons]
    simp [natBits_length, ih]
    omega

theorem lor_shiftLeft_eq_add {bb bl : Nat} (m : Nat) (h : bb < 2 ^ bl) :
    bb ||| (m <<< bl) = bb + m * 2 ^ bl := by
  calc bb ||| (m <<< bl) = bb ||| (2 ^ bl * m) := by rw [Nat.shiftLeft_eq, mul_comm]
    _ = (2 ^ bl * m) ||| bb := Nat.lor_comm _ _
    _ = 2 ^ bl * m + bb := (Nat.mul_add_lt_is_or h m).symm
    _ = bb + m * 2 ^ bl := by ring

theorem mask_eq_mod (v n : Nat) : v &&& ((1 <<< n) - 1) = v % 2 ^ n := by
  rw [Nat.shiftLeft_eq, one_mul]
  exact Nat.and_pow_two_sub_one_eq_mod v n

theorem and_255_eq_mod (v : Nat) : v &&& 255 = v % 256 := by
  have h := Nat.and_pow_two_sub_one_eq_mod v 8
  norm_num at h
  exact h

/-! ### Writer correctness -/

theorem flushW_lt (buf : List Nat) (bb : Nat) {bl : Nat} (h : bl < 8) :
    flushW buf bb bl = (buf, bb, bl) := by
  interval_cases bl <;> rfl

theorem flushW_step (buf : List Nat) (bb bl : Nat) :
    flushW buf bb (bl + 8) = flushW (buf ++ [bb &&& 255]) (bb >>> 8) bl := rfl

theorem flushW_spec : ∀ bl buf bb, bb < 2 ^ bl → (∀ x ∈ buf, x < 256) →
    bytesBits (flushW buf bb bl).1 ++ natBits (flushW buf bb bl).2.1 (flushW buf bb bl).2.2 =
      bytesBits buf ++ natBits bb bl ∧
    (flushW buf bb bl).2.1 < 2 ^ (flushW buf bb bl).2.2 ∧
    (flushW buf bb bl).2.2 < 8 ∧
    ∀ x ∈ (flushW buf bb bl).1, x < 256 := by
  intro bl
  induction bl using Nat.strong_induction_on with
  | _ bl ih =>
    intro buf bb hbb hbuf
    by_cases h8 : bl < 8
    · rw [flushW_lt buf bb h8]
      exact ⟨rfl, hbb, h8, hbuf⟩
    · have hbl : bl = (bl - 8) + 8 := by omega
      rw [hbl] at hbb ⊢
      rw [flushW_step]
      have hbyte : bb &&& 255 < 256 := by
        rw [and_255_eq_mod]
        omega
      have hbuf2 : ∀ x ∈ buf ++ [bb &&& 255], x < 256 := by
        intro x hx
        rcases List.mem_append.mp hx with hx | hx
        · exact hbuf x hx
        · simp at hx
          subst hx
          exact hbyte
      have hbb2 : bb >>> 8 < 2 ^ (bl - 8) := by
        rw [Nat.shiftRight_eq_div_pow]
        rw [pow_add] at hbb
        exact Nat.div_lt_of_lt_mul (by rw [mul_comm] at hbb; exact hbb)
      obtain ⟨h1, h2, h3, h4⟩ := ih (bl - 8) (by omega) (buf ++ [bb &&& 255]) (bb >>> 8) hbb2 hbuf2
      refine ⟨?_, h2, h3, h4⟩
      rw [h1, bytesBits_append]
      have hsplit : natBits bb ((bl - 8) + 8) = natBits bb 8 ++ natBits (bb / 2 ^ 8) (bl - 8) := by
        rw [show (bl - 8) + 8 = 8 + (bl - 8) by omega]
        exact natBits_split 8 (bl - 8) bb
      rw [hsplit]
      have hb8 : bytesBits [bb &&& 255] = natBits bb 8 := by
        rw [and_255_eq_mod]
        have := natBits_mod 8 bb
        norm_num at this
        simp [bytesBits]
        exact this
      rw [hb8, Nat.shiftRight_eq_div_pow]
      simp [List.append_assoc]

theorem write_bits_spec (st : WS) (v n : Nat) (h : wsInv st) :
    wsInv (write_bits st v n) ∧ wsBits (write_bits st v n) = wsBits st ++ natBits v n := by
  obtain ⟨hbb, hbl, hbuf⟩ := h
  have hX : st.bitbuf ||| (v &&& ((1 <<< n) - 1)) <<< st.bitlen =
      st.bitbuf + (v % 2 ^ n) * 2 ^ st.bitlen := by
    rw [mask_eq_mod]
    exact lor_shiftLeft_eq_add _ hbb
  have hXlt : st.bitbuf + (v % 2 ^ n) * 2 ^ st.bitlen < 2 ^ (st.bitlen + n) := by
    have hv : v % 2 ^ n < 2 ^ n := Nat.mod_lt _ (Nat.two_pow_pos n)
    have : st.bitbuf + (v % 2 ^ n) * 2 ^ st.bitlen < (v % 2 ^ n + 1) * 2 ^ st.bitlen := by
      nlinarith [Nat.two_pow_pos st.bitlen]
    calc st.bitbuf + (v % 2 ^ n) * 2 ^ st.bitlen < (v % 2 ^ n + 1) * 2 ^ st.bitlen := this
      _ ≤ 2 ^ n * 2 ^ st.bitlen := by
          have : v % 2 ^ n + 1 ≤ 2 ^ n := hv
          exact Nat.mul_le_mul_right _ this
      _ = 2 ^ (st.bitlen + n) := by rw [← pow_add, Nat.add_comm]
  have hXbits : natBits (st.bitbuf + (v % 2 ^ n) * 2 ^ st.bitlen) (st.bitlen + n) =
      natBits st.bitbuf st.bitlen ++ natBits v n := by
    rw [natBits_split st.bitlen n]
    have hmod : (st.bitbuf + (v % 2 ^ n) * 2 ^ st.bitlen) % 2 ^ st.bitlen = st.bitbuf := by
      rw [Nat.add_mul_mod_self_right]
      exact Nat.mod_eq_of_lt hbb
    have hdivq : (st.bitbuf + (v % 2 ^ n) * 2 ^ st.bitlen) / 2 ^ st.bitlen = v % 2 ^ n := by
      rw [Nat.add_mul_div_right _ _ (Nat.two_pow_pos st.bitlen)]
      rw [Nat.div_eq_of_lt hbb]
      omega
    have h1 : natBits (st.bitbuf + (v % 2 ^ n) * 2 ^ st.bitlen) st.bitlen =
        natBits st.bitbuf st.bitlen := by
      rw [← natBits_mod st.bitlen, hmod]
    rw [h1, hdivq, natBits_mod]
  have hmain := flushW_spec (st.bitlen + n) st.buf
    (st.bitbuf ||| (v &&& ((1 <<< n) - 1)) <<< st.bitlen) (by rw [hX]; exact hXlt) hbuf
  simp only [write_bits]
  refine ⟨⟨hmain.2.1, hmain.2.2.1, hmain.2.2.2⟩, ?_⟩
  simp only [wsBits]
  rw [hmain.1, hX, hXbits, List.append_assoc]

theorem finalizeW_spec (st : WS) (h : wsInv st) :
    bytesBits (finalizeW st) = wsBits st ++ List.replicate ((8 - st.bitlen) % 8) false ∧
    ∀ x ∈ finalizeW st, x < 256 := by
  obtain ⟨hbb, hbl, hbuf⟩ := h
  simp only [finalizeW, wsBits]
  by_cases h0 : st.bitlen > 0
  · rw [if_pos h0]
    constructor
    · rw [bytesBits_append]
      have hb : bytesBits [st.bitbuf &&& 255] = natBits st.bitbuf 8 := by
        rw [and_255_eq_mod]
        have := natBits_mod 8 st.bitbuf
        norm_num at this
        simp [bytesBits]
        exact this
      rw [hb]
      have hsplit : natBits st.bitbuf 8 =
          natBits st.bitbuf st.bitlen ++ natBits (st.bitbuf / 2 ^ st.bitlen) (8 - st.bitlen) := by
        conv_lhs => rw [show (8:Nat) = st.bitlen + (8 - st.bitlen) by omega]
        exact natBits_split st.bitlen (8 - st.bitlen) st.bitbuf
      rw [hsplit, Nat.div_eq_of_lt hbb, natBits_zero_val]
      rw [show (8 - st.bitlen) % 8 = 8 - st.bitlen by omega]
      simp [List.append_assoc]
    · intro x hx
      rcases List.mem_append.mp hx with hx | hx
      · exact hbuf x hx
      · simp at hx
        subst hx
        rw [and_255_eq_mod]
        omega
  · rw [if_neg h0]
    have hbl0 : st.bitlen = 0 := by omega
    constructor
    · rw [hbl0]
      simp [natBits]
    · simpa using hbuf

/-! ### Reader correctness -/

theorem read_bits_load {rest : List Nat} {b bb bl n : Nat} (h : bl < n) :
    read_bits (b :: rest) bb bl n = read_bits rest (bb ||| b <<< bl) (bl + 8) n := by
  rw [read_bits.eq_def]
  dsimp only
  rw [if_pos h]

theorem read_bits_enough {rest : List Nat} {bb bl n : Nat} (h : ¬ bl < n) :
    read_bits rest bb bl n = .ok (bb &&& ((1 <<< n) - 1), rest, bb >>> n, bl - n) := by
  rw [read_bits.eq_def]
  dsimp only
  rw [if_neg h]

theorem read_bits_short (rest : List Nat) (bb bl n : Nat) (hbb : bb < 2 ^ bl) (hn : n ≤ bl) :
    read_bits rest bb bl n =
      .ok (bitsVal ((natBits bb bl ++ bytesBits rest).take n), rest, bb >>> n, bl - n) ∧
    natBits (bb >>> n) (bl - n) ++ bytesBits rest = (natBits bb bl ++ bytesBits rest).drop n ∧
    bb >>> n < 2 ^ (bl - n) := by
  have hsplit : natBits bb bl = natBits bb n ++ natBits (bb / 2 ^ n) (bl - n) := by
    conv_lhs => rw [show bl = n + (bl - n) by omega]
    exact natBits_split n (bl - n) bb
  have hlen : (natBits bb n).length = n := natBits_length n bb
  have htake : (natBits bb bl ++ bytesBits rest).take n = natBits bb n := by
    rw [hsplit, List.append_assoc]
    exact List.take_left' hlen
  have hdrop : (natBits bb bl ++ bytesBits rest).drop n =
      natBits (bb / 2 ^ n) (bl - n) ++ bytesBits rest := by
    rw [hsplit, List.append_assoc]
    exact List.drop_left' hlen
  have hval : bb &&& ((1 <<< n) - 1) = bitsVal ((natBits bb bl ++ bytesBits rest).take n) := by
    rw [htake, bitsVal_natBits, mask_eq_mod]
  have hdivlt : bb / 2 ^ n < 2 ^ (bl - n) := by
    apply Nat.div_lt_of_lt_mul
    rw [← pow_add, show n + (bl - n) = bl by omega]
    exact hbb
  refine ⟨?_, ?_, ?_⟩
  · rw [read_bits_enough (by omega), hval]
  · rw [hdrop, Nat.shiftRight_eq_div_pow]
  · rw [Nat.shiftRight_eq_div_pow]
    exact hdivlt

theorem read_bits_ok : ∀ rest bb bl n,
    bb < 2 ^ bl → (∀ x ∈ rest, x < 256) → n ≤ bl + 8 * rest.length →
    ∃ r2 bb2 bl2,
      read_bits rest bb bl n =
        .ok (bitsVal ((natBits bb bl ++ bytesBits rest).take n), r2, bb2, bl2) ∧
      natBits bb2 bl2 ++ bytesBits r2 = (natBits bb bl ++ bytesBits rest).drop n ∧
      bb2 < 2 ^ bl2 ∧ (∀ x ∈ r2, x < 256) ∧
      bl2 + 8 * r2.length + n = bl + 8 * rest.length := by
  intro rest
  induction rest with
  | nil =>
    intro bb bl n hbb h256 hn
    simp only [List.length_nil, Nat.mul_zero, Nat.add_zero] at hn
    obtain ⟨h1, h2, h3⟩ := read_bits_short [] bb bl n hbb hn
    refine ⟨[], bb >>> n, bl - n, h1, h2, h3, ?_, ?_⟩
    · intro x hx; cases hx
    · simp only [List.length_nil]
      omega
  | cons b r ih =>
    intro bb bl n hbb h256 hn
    by_cases hlt : bl < n
    · have hb256 : b < 256 := h256 b (by simp)
      have hr256 : ∀ x ∈ r, x < 256 := fun x hx => h256 x (by simp [hx])
      have hX : bb ||| b <<< bl = bb + b * 2 ^ bl := lor_shiftLeft_eq_add b hbb
      have hXlt : bb + b * 2 ^ bl < 2 ^ (bl + 8) := by
        have : bb + b * 2 ^ bl < (b + 1) * 2 ^ bl := by
          nlinarith [Nat.two_pow_pos bl]
        calc bb + b * 2 ^ bl < (b + 1) * 2 ^ bl := this
          _ ≤ 2 ^ 8 * 2 ^ bl := by
              apply Nat.mul_le_mul_right
              norm_num
              omega
          _ = 2 ^ (bl + 8) := by rw [← pow_add, Nat.add_comm]
      have hbits : natBits (bb + b * 2 ^ bl) (bl + 8) ++ bytesBits r =
          natBits bb bl ++ bytesBits (b :: r) := by
        rw [natBits_split bl 8]
        have hmod : (bb + b * 2 ^ bl) % 2 ^ bl = bb := by
          rw [Nat.add_mul_mod_self_right]
          exact Nat.mod_eq_of_lt hbb
        have hdivq : (bb + b * 2 ^ bl) / 2 ^ bl = b := by
          rw [Nat.add_mul_div_right _ _ (Nat.two_pow_pos bl), Nat.div_eq_of_lt hbb]
          omega
        have h1 : natBits (bb + b * 2 ^ bl) bl = natBits bb bl := by
          rw [← natBits_mod bl, hmod]
        rw [h1, hdivq, bytesBits_cons, List.append_assoc]
      have hn2 : n ≤ (bl + 8) + 8 * r.length := by
        simp only [List.length_cons] at hn
        omega
      obtain ⟨r2, bb2, bl2, g1, g2, g3, g4, g5⟩ :=
        ih (bb ||| b <<< bl) (bl + 8) n (by rw [hX]; exact hXlt) hr256 hn2
      rw [hX] at g1 g2
      rw [hbits] at g1 g2
      refine ⟨r2, bb2, bl2, ?_, g2, g3, g4, ?_⟩
      · rw [read_bits_load hlt, hX]
        exact g1
      · simp only [List.length_cons]
        omega
    · obtain ⟨h1, h2, h3⟩ := read_bits_short (b :: r) bb bl n hbb (by omega)
      exact ⟨b :: r, bb >>> n, bl - n, h1, h2, h3, h256, by omega⟩

theorem brBits_length (br : BRS) : (brBits br).length = br.bitlen + 8 * br.rest.length := by
  simp [brBits, natBits_length, bytesBits_length]

theorem BRS_read_ok (br : BRS) (n : Nat) (h : brInv br) (hn : n ≤ (brBits br).length) :
    ∃ br2, br.read n = .ok (bitsVal ((brBits br).take n), br2) ∧
      brBits br2 = (brBits br).drop n ∧ brInv br2 := by
  obtain ⟨hbb, h256⟩ := h
  rw [brBits_length] at hn
  obtain ⟨r2, bb2, bl2, g1, g2, g3, g4, g5⟩ :=
    read_bits_ok br.rest br.bitbuf br.bitlen n hbb h256 hn
  refine ⟨⟨r2, bb2, bl2⟩, ?_, ?_, g3, g4⟩
  · simp only [BRS.read, g1, brBits]
  · simpa [brBits] using g2

theorem bitsVal_take_natBits (v k : Nat) (rest : List Bool) :
    bitsVal ((natBits v k ++ rest).take k) = v % 2 ^ k := by
  rw [List.take_left' (natBits_length k v), bitsVal_natBits]

theorem BRS_read_field (br : BRS) (v k : Nat) (rest : List Bool)
    (hinv : brInv br) (hv : v < 2 ^ k) (hbits : brBits br = natBits v k ++ rest) :
    ∃ br2, br.read k = .ok (v, br2) ∧ brBits br2 = rest ∧ brInv br2 := by
  have hn : k ≤ (brBits br).length := by
    rw [hbits]
    simp [natBits_length]
  obtain ⟨br2, g1, g2, g3⟩ := BRS_read_ok br k hinv hn
  refine ⟨br2, ?_, ?_, g3⟩
  · rw [g1, hbits, bitsVal_take_natBits, Nat.mod_eq_of_lt hv]
  · rw [g2, hbits, List.drop_left' (natBits_length k v)]

theorem readRecord_spec (br : BRS) (t : Nat) (rec : SubRun) (tail : List Bool)
    (hinv : brInv br) (ht : t < 16) (hwf : recWF rec)
    (hbits : brBits br = recBits t rec ++ tail) :
    ∃ br2, readRecord br = .ok (t, subConsumed rec, br2) ∧ brBits br2 = tail ∧ brInv br2 := by
  cases rec with
  | short a =>
    simp only [recWF] at hwf
    have hb : brBits br = natBits t 4 ++ (natBits 0 1 ++ (natBits a 3 ++ tail)) := by
      rw [hbits]
      simp [recBits, List.append_assoc]
    obtain ⟨br1, e1, b1, i1⟩ := BRS_read_field br t 4 _ hinv (by norm_num; omega) hb
    obtain ⟨br2, e2, b2, i2⟩ := BRS_read_field br1 0 1 _ i1 (by norm_num) b1
    obtain ⟨br3, e3, b3, i3⟩ := BRS_read_field br2 a 3 _ i2 (by norm_num; omega) b2
    refine ⟨br3, ?_, b3, i3⟩
    simp only [readRecord, bind, Except.bind, e1, e2, e3]
    norm_num [subConsumed]
    rfl
  | ext s m =>
    simp only [recWF] at hwf
    have hb : brBits br = natBits t 4 ++ (natBits 1 1 ++ (natBits s 3 ++ (natBits m 5 ++ tail))) := by
      rw [hbits]
      simp [recBits, List.append_assoc]
    obtain ⟨br1, e1, b1, i1⟩ := BRS_read_field br t 4 _ hinv (by norm_num; omega) hb
    obtain ⟨br2, e2, b2, i2⟩ := BRS_read_field br1 1 1 _ i1 (by norm_num) b1
    obtain ⟨br3, e3, b3, i3⟩ := BRS_read_field br2 s 3 _ i2 (by norm_num; omega) b2
    obtain ⟨br4, e4, b4, i4⟩ := BRS_read_field br3 m 5 _ i3 (by norm_num; omega) b3
    refine ⟨br4, ?_, b4, i4⟩
    simp only [readRecord, bind, Except.bind, e1, e2, e3, e4]
    norm_num [subConsumed]
    rfl
  | fb a => exact absurd hwf (by simp [recWF])

/-! ### Decode-loop correctness at the Type level -/

theorem subConsumed_pos {r : SubRun} (h : recWF r) : 1 ≤ subConsumed r := by
  cases r with
  | short a => simp [subConsumed]
  | ext s m =>
    simp only [subConsumed]
    exact Nat.one_le_iff_ne_zero.mpr (by positivity)
  | fb a => exact absurd h (by simp [recWF])

theorem decodeTypesF_done {count fuel expanded : Nat} {br : BRS} {acc : List Nat}
    (h : expanded ≥ count) : decodeTypesF count fuel br acc expanded = .ok acc := by
  rw [decodeTypesF.eq_def]
  dsimp only
  rw [if_pos h]

theorem decodeTypesF_step {count fuel expanded : Nat} {br : BRS} {acc : List Nat}
    (h : ¬ expanded ≥ count) :
    decodeTypesF count (fuel + 1) br acc expanded =
      match readRecord br with
      | .error e => .error e
      | .ok (t, run, br2) =>
        decodeTypesF count fuel br2 (acc ++ List.replicate run t) (expanded + run) := by
  rw [decodeTypesF.eq_def]
  dsimp only
  rw [if_neg h]

theorem decode_run (t : Nat) (ht : t < 16) :
    ∀ recs (br : BRS) (acc : List Nat) (expanded count fuel : Nat) (tail : List Bool),
      brInv br →
      brBits br = runBits t recs ++ tail →
      (∀ r ∈ recs, recWF r) →
      expanded + (recs.map subConsumed).sum ≤ count →
      count - expanded ≤ fuel →
      ∃ br2 fuel2,
        decodeTypesF count fuel br acc expanded =
          decodeTypesF count fuel2 br2 (acc ++ List.replicate ((recs.map subConsumed).sum) t)
            (expanded + (recs.map subConsumed).sum) ∧
        brBits br2 = tail ∧ brInv br2 ∧
        count - (expanded + (recs.map subConsumed).sum) ≤ fuel2 := by
  intro recs
  induction recs with
  | nil =>
    intro br acc expanded count fuel tail hinv hbits _ hcnt hfuel
    refine ⟨br, fuel, ?_, by simpa [runBits] using hbits, hinv, by omega⟩
    simp
  | cons r rs ih =>
    intro br acc expanded count fuel tail hinv hbits hwf hcnt hfuel
    have hwr : recWF r := hwf r (by simp)
    have hpos : 1 ≤ subConsumed r := subConsumed_pos hwr
    have hsum : ((r :: rs).map subConsumed).sum = subConsumed r + (rs.map subConsumed).sum := by
      simp
    have hlt : ¬ expanded ≥ count := by
      rw [hsum] at hcnt
      omega
    cases fuel with
    | zero => omega
    | succ f =>
      have hrb : brBits br = recBits t r ++ (runBits t rs ++ tail) := by
        rw [hbits]
        simp [runBits, List.append_assoc]
      obtain ⟨br1, e1, b1, i1⟩ := readRecord_spec br t r (runBits t rs ++ tail) hinv ht hwr hrb
      obtain ⟨br2, fuel2, g1, g2, g3, g4⟩ :=
        ih br1 (acc ++ List.replicate (subConsumed r) t) (expanded + subConsumed r) count f tail
          i1 b1 (fun x hx => hwf x (by simp [hx])) (by rw [hsum] at hcnt; omega) (by omega)
      refine ⟨br2, fuel2, ?_, g2, g3, ?_⟩
      · rw [decodeTypesF_step hlt, e1]
        dsimp only
        rw [g1, hsum]
        rw [List.append_assoc, ← List.replicate_add]
        rw [← Nat.add_assoc]
      · rw [hsum]
        omega

theorem take_runLen (t : Nat) : ∀ l : List Nat, l.take (runLen t l) = List.replicate (runLen t l) t := by
  intro l
  induction l with
  | nil => rfl
  | cons x xs ih =>
    by_cases hx : x = t
    · subst hx
      have h1 : runLen x (x :: xs) = runLen x xs + 1 := by
        simp [runLen, List.takeWhile]
      rw [h1]
      simp only [List.take_succ_cons, List.replicate_succ]
      rw [ih]
    · have hb : (x == t) = false := by simp [hx]
      have h1 : runLen t (x :: xs) = 0 := by
        simp [runLen, List.takeWhile, hb]
      rw [h1]
      rfl

theorem length_drop_runLen (t : Nat) (l : List Nat) : runLen t l ≤ l.length := by
  simp only [runLen]
  exact (List.takeWhile_sublist _).length_le

theorem typesBits_nil : typesBits [] = [] := by
  rw [typesBits]

theorem typesBits_cons (t : Nat) (rest : List Nat) :
    typesBits (t :: rest) =
      runBits t (splitRun (1 + runLen t rest)) ++
        typesBits ((t :: rest).drop (1 + runLen t rest)) := by
  rw [typesBits]

theorem decode_types_go : ∀ N ts (acc : List Nat) (expanded count : Nat) (br : BRS) fuel
    (tail : List Bool),
    ts.length ≤ N →
    (∀ t ∈ ts, t < 16) → brInv br →
    brBits br = typesBits ts ++ tail →
    count = expanded + ts.length →
    count - expanded ≤ fuel →
    decodeTypesF count fuel br acc expanded = .ok (acc ++ ts) := by
  intro N
  induction N with
  | zero =>
    intro ts acc expanded count br fuel tail hN _ _ _ hcnt _
    have hts : ts = [] := List.eq_nil_of_length_eq_zero (Nat.le_zero.mp hN)
    subst hts
    simp only [List.length_nil, Nat.add_zero] at hcnt
    rw [decodeTypesF_done (by omega)]
    simp
  | succ N ih =>
    intro ts acc expanded count br fuel tail hN hmem hinv hbits hcnt hfuel
    cases ts with
    | nil =>
      simp only [List.length_nil, Nat.add_zero] at hcnt
      rw [decodeTypesF_done (by omega)]
      simp
    | cons t rest =>
      have ht : t < 16 := hmem t (by simp)
      have hrl : runLen t rest ≤ rest.length := length_drop_runLen t rest
      obtain ⟨hsum0, hwf0⟩ := splitRunF_wf (1 + runLen t rest) (1 + runLen t rest) (Nat.le_refl _)
      have hsum : ((splitRun (1 + runLen t rest)).map subConsumed).sum = 1 + runLen t rest := hsum0
      have hwf : ∀ r ∈ splitRun (1 + runLen t rest), recWF r := hwf0
      have hbits2 : brBits br = runBits t (splitRun (1 + runLen t rest)) ++
          (typesBits ((t :: rest).drop (1 + runLen t rest)) ++ tail) := by
        rw [hbits, typesBits_cons, List.append_assoc]
      obtain ⟨br2, fuel2, g1, g2, g3, g4⟩ :=
        decode_run t ht (splitRun (1 + runLen t rest)) br acc expanded count fuel
          (typesBits ((t :: rest).drop (1 + runLen t rest)) ++ tail) hinv hbits2 hwf
          (by rw [hsum]; simp only [List.length_cons] at hcnt; omega) hfuel
      rw [g1, hsum]
      have hdroplen : ((t :: rest).drop (1 + runLen t rest)).length = rest.length - runLen t rest := by
        simp only [List.length_drop, List.length_cons]
        omega
      have hih := ih ((t :: rest).drop (1 + runLen t rest))
        (acc ++ List.replicate (1 + runLen t rest) t) (expanded + (1 + runLen t rest)) count br2
        fuel2 tail (by rw [hdroplen]; simp only [List.length_cons] at hN; omega)
        (fun x hx => hmem x (List.drop_subset _ _ hx)) g3 g2
        (by simp only [List.length_cons] at hcnt; rw [hdroplen]; omega)
        (by rw [hsum] at g4; exact g4)
      rw [hih]
      have hts : List.replicate (1 + runLen t rest) t ++ (t :: rest).drop (1 + runLen t rest) =
          t :: rest := by
        conv_rhs => rw [← List.take_append_drop (1 + runLen t rest) (t :: rest)]
        congr 1
        rw [show 1 + runLen t rest = runLen t rest + 1 by omega]
        simp only [List.take_succ_cons]
        rw [take_runLen]
        rw [← List.replicate_succ]
      rw [List.append_assoc, hts]

/-! ### Encoder correctness -/

theorem writeRec_spec (st : WS) (t : Nat) (rec : SubRun) (h : wsInv st) :
    wsInv (writeRec st t rec) ∧ wsBits (writeRec st t rec) = wsBits st ++ recBits t rec := by
  cases rec with
  | short a =>
    obtain ⟨i1, e1⟩ := write_bits_spec st t 4 h
    obtain ⟨i2, e2⟩ := write_bits_spec _ 0 1 i1
    obtain ⟨i3, e3⟩ := write_bits_spec _ a 3 i2
    exact ⟨i3, by simp [writeRec, recBits, e3, e2, e1, List.append_assoc]⟩
  | ext sm1 m =>
    obtain ⟨i1, e1⟩ := write_bits_spec st t 4 h
    obtain ⟨i2, e2⟩ := write_bits_spec _ 1 1 i1
    obtain ⟨i3, e3⟩ := write_bits_spec _ sm1 3 i2
    obtain ⟨i4, e4⟩ := write_bits_spec _ m 5 i3
    exact ⟨i4, by simp [writeRec, recBits, e4, e3, e2, e1, List.append_assoc]⟩
  | fb a =>
    obtain ⟨i1, e1⟩ := write_bits_spec st t 4 h
    obtain ⟨i2, e2⟩ := write_bits_spec _ 0 1 i1
    obtain ⟨i3, e3⟩ := write_bits_spec _ a 3 i2
    exact ⟨i3, by simp [writeRec, recBits, e3, e2, e1, List.append_assoc]⟩

theorem emitRunF_eq_foldl : ∀ fuel (st : WS) (t rem : Nat),
    emitRunF fuel st t rem = (splitRunF fuel rem).foldl (fun s r => writeRec s t r) st := by
  intro fuel
  induction fuel with
  | zero =>
    intro st t rem
    cases rem <;> rfl
  | succ fuel ih =>
    intro st t rem
    cases rem with
    | zero => rfl
    | succ k =>
      simp only [emitRunF, splitRunF]
      by_cases h8 : k + 1 ≤ 8
      · rw [if_pos h8, if_pos h8]
        rfl
      · rw [if_neg h8, if_neg h8]
        have hsm : (if (k + 1 : Nat) < 8 then (k + 1 : Nat) else 8) = 8 := if_neg (by omega)
        rw [hsm]
        by_cases hM : (min 31 (((k + 1 : Nat) : Int) / ((8 : Nat) : Int) - 1)) < 0
        · rw [if_pos hM, if_pos hM]
          rfl
        · rw [if_neg hM, if_neg hM]
          rw [List.foldl_cons]
          exact ih _ t _

theorem foldl_writeRec_spec (t : Nat) : ∀ recs (st : WS), wsInv st →
    wsInv (recs.foldl (fun s r => writeRec s t r) st) ∧
    wsBits (recs.foldl (fun s r => writeRec s t r) st) = wsBits st ++ runBits t recs := by
  intro recs
  induction recs with
  | nil =>
    intro st h
    exact ⟨h, by simp [runBits]⟩
  | cons r rs ih =>
    intro st h
    obtain ⟨i1, e1⟩ := writeRec_spec st t r h
    obtain ⟨i2, e2⟩ := ih (writeRec st t r) i1
    refine ⟨i2, ?_⟩
    rw [List.foldl_cons] at *
    rw [e2, e1]
    simp [runBits, List.append_assoc]

theorem emitRun_spec (st : WS) (t rem : Nat) (h : wsInv st) :
    wsInv (emitRun st t rem) ∧ wsBits (emitRun st t rem) = wsBits st ++ runBits t (splitRun rem) := by
  rw [emitRun, emitRunF_eq_foldl]
  exact foldl_writeRec_spec t (splitRun rem) st h

theorem encodeTypesF_spec : ∀ fuel (ts : List Nat) (st : WS), ts.length ≤ fuel → wsInv st →
    wsInv (encodeTypesF fuel st ts) ∧
    wsBits (encodeTypesF fuel st ts) = wsBits st ++ typesBits ts := by
  intro fuel
  induction fuel with
  | zero =>
    intro ts st hlen h
    have hts : ts = [] := List.eq_nil_of_length_eq_zero (Nat.le_zero.mp hlen)
    subst hts
    exact ⟨h, by simp [encodeTypesF, typesBits_nil]⟩
  | succ fuel ih =>
    intro ts st hlen h
    cases ts with
    | nil => exact ⟨h, by simp [encodeTypesF, typesBits_nil]⟩
    | cons t rest =>
      simp only [encodeTypesF]
      obtain ⟨i1, e1⟩ := emitRun_spec st t (1 + runLen t rest) h
      have hrl : runLen t rest ≤ rest.length := length_drop_runLen t rest
      have hdl : ((t :: rest).drop (1 + runLen t rest)).length ≤ fuel := by
        simp only [List.length_drop, List.length_cons]
        simp only [List.length_cons] at hlen
        omega
      obtain ⟨i2, e2⟩ := ih ((t :: rest).drop (1 + runLen t rest)) _ hdl i1
      refine ⟨i2, ?_⟩
      rw [e2, e1, typesBits_cons, List.append_assoc]

theorem wsInv_init : wsInv ⟨[], 0, 0⟩ := by
  refine ⟨by norm_num, by norm_num, ?_⟩
  intro b hb
  cases hb

theorem mkBitstream_spec (ts : List Nat) :
    ∃ padding : List Bool,
      bytesBits (mkBitstream ts) = typesBits ts ++ (natBits 511 9 ++ padding) ∧
      (∀ x ∈ mkBitstream ts, x < 256) ∧ padding.length < 8 := by
  obtain ⟨i1, e1⟩ := encodeTypesF_spec ts.length ts ⟨[], 0, 0⟩ (Nat.le_refl _) wsInv_init
  obtain ⟨i2, e2⟩ := write_bits_spec (encodeTypes ⟨[], 0, 0⟩ ts) ((1 <<< 9) - 1) 9 i1
  obtain ⟨e3, h3⟩ := finalizeW_spec _ i2
  refine ⟨List.replicate ((8 - (write_bits (encodeTypes ⟨[], 0, 0⟩ ts) ((1 <<< 9) - 1) 9).bitlen) % 8) false, ?_, h3, by simp; omega⟩
  rw [mkBitstream] at *
  rw [e3, e2]
  have hw : wsBits (⟨[], 0, 0⟩ : WS) = [] := by
    simp [wsBits, bytesBits, natBits]
  have h511 : natBits ((1 <<< 9) - 1) 9 = natBits 511 9 := by decide
  rw [encodeTypes] at *
  rw [e1, hw, h511]
  simp [List.append_assoc]

/-- C3: run-length encoding exactness: for every synthetic Type sequence
(4-bit values), encoding with the two-form run-length scheme and decoding
with the header count reproduces exactly the original Type-per-position
sequence; and a run of length 257 is emitted as an extended-form sub-run
of 256 (fields 7 and 31) followed by a short-form sub-run of length 1. -/
theorem C3_run_encoding :
    (∀ ts : List Nat, (∀ t ∈ ts, t < 16) →
      decodeTypes (mkBitstream ts) ts.length = .ok ts) ∧
    splitRun 257 = [SubRun.ext 7 31, SubRun.short 0] := by
  constructor
  · intro ts hts
    obtain ⟨padding, e1, h256, hpadlt⟩ := mkBitstream_spec ts
    have hinv : brInv ⟨mkBitstream ts, 0, 0⟩ := ⟨by norm_num, h256⟩
    have hbits : brBits ⟨mkBitstream ts, 0, 0⟩ = typesBits ts ++ (natBits 511 9 ++ padding) := by
      simp only [brBits, natBits]
      exact e1
    rw [decodeTypes]
    have h := decode_types_go ts.length ts [] 0 ts.length ⟨mkBitstream ts, 0, 0⟩ ts.length
      (natBits 511 9 ++ padding) (Nat.le_refl _) hts hinv hbits (by omega) (by omega)
    simpa using h
  · decide

set_option maxRecDepth 4000 in
theorem C3_run_encoding_witness :
    decodeTypes (mkBitstream (List.replicate 257 4 ++ [15])) 258 =
      .ok (List.replicate 257 4 ++ [15]) := by
  have h := C3_run_encoding.1 (List.replicate 257 4 ++ [15]) (by
    intro t ht
    rcases List.mem_append.mp ht with ht | ht
    · rw [List.eq_of_mem_replicate ht]
      norm_num
    · simp at ht
      omega)
  have h258 : (List.replicate 257 4 ++ [15] : List Nat).length = 258 := by
    rw [List.length_append, List.length_replicate]
    rfl
  rw [h258] at h
  exact h

/-! ### Bit writer/reader FIFO round trip -/

theorem writeAll_spec : ∀ ps (st : WS), wsInv st →
    wsInv (writeAll st ps) ∧ wsBits (writeAll st ps) = wsBits st ++ psBits ps := by
  intro ps
  induction ps with
  | nil =>
    intro st h
    exact ⟨h, by simp [writeAll, psBits]⟩
  | cons p ps ih =>
    intro st h
    obtain ⟨i1, e1⟩ := write_bits_spec st p.1 p.2 h
    obtain ⟨i2, e2⟩ := ih (write_bits st p.1 p.2) i1
    refine ⟨by simpa [writeAll] using i2, ?_⟩
    simp only [writeAll, List.foldl_cons] at e2 ⊢
    rw [e2, e1]
    simp [psBits, List.append_assoc]

theorem readAllF_spec : ∀ ps (br : BRS) (tail : List Bool), brInv br →
    brBits br = psBits ps ++ tail →
    readAllF (ps.map Prod.snd) br = .ok (ps.map (fun p => p.1 % 2 ^ p.2)) := by
  intro ps
  induction ps with
  | nil => intro br tail _ _; rfl
  | cons p ps ih =>
    intro br tail hinv hbits
    have hb : brBits br = natBits (p.1 % 2 ^ p.2) p.2 ++ (psBits ps ++ tail) := by
      rw [hbits, natBits_mod]
      simp [psBits, List.append_assoc]
    obtain ⟨br2, e1, b1, i1⟩ := BRS_read_field br (p.1 % 2 ^ p.2) p.2 _ hinv
      (Nat.mod_lt _ (Nat.two_pow_pos _)) hb
    simp only [List.map_cons, readAllF, e1]
    rw [ih br2 tail i1 b1]

/-- C4: FIFO bit round trip: writing any sequence of (value, width) pairs
LSB-first and flushing, then reading back the same widths in order, yields
exactly the written values masked to their widths; and whenever the byte
source holds fewer than `n` bits, `read_bits` fails with the
truncated-stream error. -/
theorem C4_bit_io :
    (∀ ps : List (Nat × Nat),
      readAll (finalizeW (writeAll ⟨[], 0, 0⟩ ps)) (ps.map Prod.snd) =
        .ok (ps.map (fun p => p.1 % 2 ^ p.2))) ∧
    (∀ (rest : List Nat) (bb bl n : Nat), bl + 8 * rest.length < n →
      read_bits rest bb bl n = .error DErr.truncated) := by
  constructor
  · intro ps
    obtain ⟨i1, e1⟩ := writeAll_spec ps ⟨[], 0, 0⟩ wsInv_init
    obtain ⟨e2, h2⟩ := finalizeW_spec _ i1
    have hw : wsBits (⟨[], 0, 0⟩ : WS) = [] := by
      simp [wsBits, bytesBits, natBits]
    rw [e1, hw, List.nil_append] at e2
    have hinv : brInv ⟨finalizeW (writeAll ⟨[], 0, 0⟩ ps), 0, 0⟩ := ⟨by norm_num, h2⟩
    have hbits : brBits ⟨finalizeW (writeAll ⟨[], 0, 0⟩ ps), 0, 0⟩ =
        psBits ps ++ List.replicate ((8 - (writeAll ⟨[], 0, 0⟩ ps).bitlen) % 8) false := by
      simp only [brBits, natBits]
      simpa using e2
    exact readAllF_spec ps _ _ hinv hbits
  · intro rest
    induction rest with
    | nil =>
      intro bb bl n h
      rw [read_bits.eq_def]
      dsimp only
      rw [if_pos (by simp at h; omega)]
    | cons b r ih =>
      intro bb bl n h
      rw [read_bits_load (by simp at h; omega)]
      apply ih
      simp only [List.length_cons] at h
      omega

theorem C4_bit_io_witness :
    readAll (finalizeW (writeAll ⟨[], 0, 0⟩ [(9, 4), (300, 9), (1, 1)])) [4, 9, 1] =
      .ok [9 % 2 ^ 4, 300 % 2 ^ 9, 1 % 2 ^ 1] ∧
    read_bits [] 0 0 3 = .error DErr.truncated :=
  ⟨C4_bit_io.1 [(9, 4), (300, 9), (1, 1)], C4_bit_io.2 [] 0 0 3 (by norm_num)⟩

/-! ### Fuel irrelevance: the iteration bounds never bind -/

theorem read_bits_avail : ∀ rest bb bl n v r2 bb2 bl2,
    read_bits rest bb bl n = .ok (v, r2, bb2, bl2) →
    bl2 + 8 * r2.length + n = bl + 8 * rest.length := by
  intro rest
  induction rest with
  | nil =>
    intro bb bl n v r2 bb2 bl2 h
    rw [read_bits.eq_def] at h
    dsimp only at h
    split at h
    · cases h
    · cases h
      rename_i hnot
      simp only [List.length_nil]
      omega
  | cons b r ih =>
    intro bb bl n v r2 bb2 bl2 h
    rw [read_bits.eq_def] at h
    dsimp only at h
    split at h
    · have := ih _ _ _ _ _ _ _ h
      simp only [List.length_cons]
      omega
    · cases h
      rename_i hnot
      simp only [List.length_cons]
      omega

theorem BRS_read_avail {br : BRS} {n v : Nat} {br2 : BRS} (h : br.read n = .ok (v, br2)) :
    availBits br2 + n = availBits br := by
  simp only [BRS.read] at h
  split at h
  · cases h
  · cases h
    rename_i heq
    have := read_bits_avail _ _ _ _ _ _ _ _ heq
    simp only [availBits]
    omega

/-- The 9-ones scan returns the same state for every sufficient iteration
bound, so the canonical bound `availBits + 1` models the unbounded Python
loop faithfully. -/
theorem scanMarkerF_fuel : ∀ fuel1 fuel2 (br : BRS) (ones : Nat),
    availBits br < fuel1 → availBits br < fuel2 →
    scanMarkerF fuel1 br ones = scanMarkerF fuel2 br ones := by
  intro fuel1
  induction fuel1 with
  | zero => intro fuel2 br ones h1 _; omega
  | succ f1 ih =>
    intro fuel2 br ones h1 h2
    cases fuel2 with
    | zero => omega
    | succ f2 =>
      rw [scanMarkerF.eq_def, scanMarkerF.eq_def]
      dsimp only
      by_cases h9 : ones ≥ 9
      · rw [if_pos h9, if_pos h9]
      · rw [if_neg h9, if_neg h9]
        cases hr : br.read 1 with
        | error e => rfl
        | ok v =>
          obtain ⟨b, br2⟩ := v
          have hav := BRS_read_avail hr
          exact ih f2 br2 _ (by omega) (by omega)

theorem readRecord_avail {br : BRS} {t run : Nat} {br2 : BRS}
    (h : readRecord br = .ok (t, run, br2)) : availBits br2 ≤ availBits br := by
  simp only [readRecord, bind, Except.bind] at h
  split at h
  · cases h
  · rename_i p heq
    obtain ⟨tv, brA⟩ := p
    have h1 := BRS_read_avail heq
    split at h
    · cases h
    · rename_i q heq2
      obtain ⟨F, brB⟩ := q
      have h2 := BRS_read_avail heq2
      split at h
      · split at h
        · cases h
        · rename_i q3 heq3
          obtain ⟨rm1, brC⟩ := q3
          have h3 := BRS_read_avail heq3
          cases h
          dsimp only at h1 h2 h3 ⊢
          omega
      · split at h
        · cases h
        · rename_i q3 heq3
          obtain ⟨sm1, brC⟩ := q3
          have h3 := BRS_read_avail heq3
          split at h
          · cases h
          · rename_i q4 heq4
            obtain ⟨M, brD⟩ := q4
            have h4 := BRS_read_avail heq4
            cases h
            dsimp only at h1 h2 h3 h4 ⊢
            omega

/-- The expansion loop returns the same result for every sufficient fuel,
so the canonical bound (the chunk count) models the unbounded Python loop
faithfully: each iteration expands at least one chunk. -/
theorem expandLoopF_fuel (home : List (List Nat)) (count : Nat) :
    ∀ fuel1 fuel2 (br : BRS) (restored positions : List Nat) (expanded : Nat),
    count - expanded ≤ fuel1 → count - expanded ≤ fuel2 →
    expandLoopF home count fuel1 br restored positions expanded =
      expandLoopF home count fuel2 br restored positions expanded := by
  intro fuel1
  induction fuel1 with
  | zero =>
    intro fuel2 br restored positions expanded h1 h2
    have he : expanded ≥ count := by omega
    rw [expandLoopF.eq_def, expandLoopF.eq_def]
    dsimp only
    rw [if_pos he, if_pos he]
  | succ f1 ih =>
    intro fuel2 br restored positions expanded h1 h2
    by_cases he : expanded ≥ count
    · rw [expandLoopF.eq_def, expandLoopF.eq_def]
      dsimp only
      rw [if_pos he, if_pos he]
    · cases fuel2 with
      | zero => omega
      | succ f2 =>
        rw [expandLoopF.eq_def, expandLoopF.eq_def]
        dsimp only
        rw [if_neg he, if_neg he]
        cases hr : readRecord br with
        | error e => rfl
        | ok v =>
          obtain ⟨t, run, br2⟩ := v
          have hpos := readRecord_run_pos _ _ _ _ hr
          dsimp only
          by_cases ht : t = 15
          · rw [if_pos ht, if_pos ht]
            exact ih f2 _ _ _ _ (by omega) (by omega)
          · rw [if_neg ht, if_neg ht]
            exact ih f2 _ _ _ _ (by omega) (by omega)

/-! ### Towards the conditional round trip: classification and header -/

theorem lastIdx_getD : ∀ (home : List (List Nat)) (c : List Nat) (i : Nat),
    lastIdx home c = some i → i < home.length ∧ home.getD i [] = c := by
  intro home
  induction home with
  | nil => intro c i h; cases h
  | cons h t ih =>
    intro c i hla
    rw [lastIdx.eq_def] at hla
    dsimp only at hla
    split at hla
    · rename_i j hj
      cases hla
      obtain ⟨h1, h2⟩ := ih c j hj
      refine ⟨by simp; omega, ?_⟩
      simpa using h2
    · split at hla
      · rename_i heq
        cases hla
        simpa using heq
      · cases hla

theorem classify_eq (home : List (List Nat)) : ∀ chunks : List (List Nat),
    classify home chunks =
      (chunks.map (typeOf home), chunks.filter (fun c => (lastIdx home c).isNone)) := by
  intro chunks
  induction chunks with
  | nil => rfl
  | cons c rest ih =>
    rw [classify.eq_def]
    dsimp only
    rw [ih]
    cases hc : lastIdx home c with
    | some i => simp [typeOf, hc, List.filter_cons]
    | none => simp [typeOf, hc, List.filter_cons]

theorem packLE_length (w n : Nat) : (packLE w n).length = w := by
  simp [packLE]

theorem packLE_bytes (w n : Nat) : ∀ x ∈ packLE w n, x < 256 := by
  intro x hx
  simp only [packLE, List.mem_map] at hx
  obtain ⟨i, _, hi⟩ := hx
  rw [← hi, and_255_eq_mod]
  omega

theorem leVal_packLE : ∀ w n, n < 2 ^ (8 * w) → leVal (packLE w n) = n := by
  intro w
  induction w with
  | zero =>
    intro n h
    simp only [Nat.mul_zero, pow_zero] at h
    interval_cases n
    rfl
  | succ w ih =>
    intro n h
    have hmap : packLE (w + 1) n = (n &&& 255) :: packLE w (n >>> 8) := by
      simp only [packLE, List.range_succ_eq_map, List.map_cons, Nat.mul_zero, Nat.shiftRight_zero,
        List.map_map]
      congr 1
      apply List.map_congr_left
      intro i _
      show n >>> (8 * Nat.succ i) &&& 255 = (n >>> 8) >>> (8 * i) &&& 255
      rw [← Nat.shiftRight_add, show 8 * Nat.succ i = 8 + 8 * i from by omega]
    rw [hmap]
    simp only [leVal, List.foldr_cons]
    have hd : n >>> 8 < 2 ^ (8 * w) := by
      rw [Nat.shiftRight_eq_div_pow]
      apply Nat.div_lt_of_lt_mul
      rw [← pow_add]
      rw [show 8 + 8 * w = 8 * (w + 1) by omega]
      exact h
    have hfold : List.foldr (fun b acc => b + 256 * acc) 0 (packLE w (n >>> 8)) = n >>> 8 :=
      ih _ hd
    rw [hfold, and_255_eq_mod, Nat.shiftRight_eq_div_pow]
    have h256 : (2 : Nat) ^ 8 = 256 := by norm_num
    rw [h256]
    omega

/-! ### Chunk-level expansion correctness -/

theorem addHome_spec (chunk : List Nat) : ∀ k restored,
    addHome chunk k restored = restored ++ (List.replicate k chunk).flatten := by
  intro k
  induction k with
  | zero => intro r; simp [addHome]
  | succ k ih =>
    intro r
    rw [addHome, ih]
    simp [List.replicate_succ, List.append_assoc]

theorem addZeros_spec : ∀ k restored positions,
    addZeros k restored positions =
      (restored ++ (List.replicate k zeroChunk).flatten,
       positions ++ (List.range k).map (fun i => restored.length + CHUNK_SIZE * i)) := by
  intro k
  induction k with
  | zero => intro r p; simp [addZeros]
  | succ k ih =>
    intro r p
    rw [addZeros, ih]
    simp only [Prod.mk.injEq]
    constructor
    · simp [List.replicate_succ, List.append_assoc]
    · rw [List.range_succ_eq_map, List.map_cons, List.map_map]
      simp only [List.append_assoc, List.length_append, zeroChunk, List.length_replicate]
      congr 1
      simp only [List.singleton_append, Nat.mul_zero, Nat.add_zero]
      congr 1
      apply List.map_congr_left
      intro i _
      simp only [Function.comp, CHUNK_SIZE]
      omega

theorem flatten_replicate_length (k : Nat) (ch : List Nat) :
    ((List.replicate k ch).flatten).length = k * ch.length := by
  induction k with
  | zero => simp
  | succ k ih => simp [List.replicate_succ, ih, Nat.succ_mul]; omega

theorem chunkFor_length (home : List (List Nat)) (hh : home.length = 16)
    (hc : ∀ c ∈ home, c.length = CHUNK_SIZE) (t : Nat) (ht : t < 16) :
    (chunkFor home t).length = CHUNK_SIZE := by
  rw [chunkFor]
  by_cases h15 : t = 15
  · rw [if_pos h15]
    simp [zeroChunk]
  · rw [if_neg h15]
    have hlt : t < home.length := by omega
    rw [List.getD_eq_getElem home [] hlt]
    exact hc _ (List.getElem_mem hlt)

theorem chunksOf_append (home : List (List Nat)) (l1 l2 : List Nat) :
    chunksOf home (l1 ++ l2) = chunksOf home l1 ++ chunksOf home l2 := by
  simp [chunksOf]

theorem chunksOf_replicate (home : List (List Nat)) (run t : Nat) :
    chunksOf home (List.replicate run t) = (List.replicate run (chunkFor home t)).flatten := by
  simp [chunksOf, List.map_replicate]

theorem chunksOf_length (home : List (List Nat)) (hh : home.length = 16)
    (hc : ∀ c ∈ home, c.length = CHUNK_SIZE) :
    ∀ ts, (∀ t ∈ ts, t < 16) → (chunksOf home ts).length = CHUNK_SIZE * ts.length := by
  intro ts
  induction ts with
  | nil => intro _; rfl
  | cons t rest ih =>
    intro hts
    simp only [chunksOf, List.map_cons, List.flatten_cons, List.length_append, List.length_cons]
    rw [chunkFor_length home hh hc t (hts t (by simp))]
    have := ih (fun x hx => hts x (by simp [hx]))
    simp only [chunksOf] at this
    rw [this]
    ring

theorem posOf_append : ∀ (l1 l2 : List Nat) (base : Nat),
    posOf (l1 ++ l2) base = posOf l1 base ++ posOf l2 (base + CHUNK_SIZE * l1.length) := by
  intro l1
  induction l1 with
  | nil => intro l2 base; simp [posOf]
  | cons t ts ih =>
    intro l2 base
    simp only [List.cons_append, posOf, List.append_eq]
    rw [ih]
    have harith : base + CHUNK_SIZE + CHUNK_SIZE * ts.length = base + CHUNK_SIZE * (t :: ts).length := by
      simp only [List.length_cons]
      ring
    by_cases h15 : t = 15
    · rw [if_pos h15, if_pos h15]
      simp [harith]
    · rw [if_neg h15, if_neg h15, harith]

theorem posOf_replicate (t : Nat) : ∀ (run base : Nat),
    posOf (List.replicate run t) base =
      if t = 15 then (List.range run).map (fun i => base + CHUNK_SIZE * i) else [] := by
  intro run
  induction run with
  | zero => intro base; simp [posOf]
  | succ run ih =>
    intro base
    rw [List.replicate_succ]
    simp only [posOf]
    by_cases h15 : t = 15
    · rw [if_pos h15, if_pos h15, ih, if_pos h15]
      rw [List.range_succ_eq_map, List.map_cons, List.map_map]
      simp only [Nat.mul_zero, Nat.add_zero]
      congr 1
      apply List.map_congr_left
      intro i _
      simp only [Function.comp, CHUNK_SIZE]
      omega
    · rw [if_neg h15, if_neg h15, ih, if_neg h15]

theorem range_map_shift (a c1 c2 : Nat) :
    (List.range c1).map (fun i => a + CHUNK_SIZE * i) ++
      (List.range c2).map (fun i => (a + CHUNK_SIZE * c1) + CHUNK_SIZE * i) =
    (List.range (c1 + c2)).map (fun i => a + CHUNK_SIZE * i) := by
  rw [List.range_add, List.map_append, List.map_map]
  congr 1
  apply List.map_congr_left
  intro i _
  simp only [Function.comp, CHUNK_SIZE]
  omega

theorem expandLoopF_done {home : List (List Nat)} {count fuel expanded : Nat} {br : BRS}
    {restored positions : List Nat} (h : expanded ≥ count) :
    expandLoopF home count fuel br restored positions expanded = .ok (restored, positions, br) := by
  rw [expandLoopF.eq_def]
  dsimp only
  rw [if_pos h]

theorem expandLoopF_step {home : List (List Nat)} {count fuel expanded : Nat} {br : BRS}
    {restored positions : List Nat} (h : ¬ expanded ≥ count) :
    expandLoopF home count (fuel + 1) br restored positions expanded =
      match readRecord br with
      | .error e => .error e
      | .ok (t, run, br2) =>
        if t = 15 then
          expandLoopF home count fuel br2 (addZeros run restored positions).1
            (addZeros run restored positions).2 (expanded + run)
        else
          expandLoopF home count fuel br2 (addHome (home.getD t []) run restored) positions
            (expanded + run) := by
  rw [expandLoopF.eq_def]
  dsimp only
  rw [if_neg h]

theorem expand_run (home : List (List Nat)) (t : Nat) (ht : t < 16) :
    ∀ recs (br : BRS) (restored positions : List Nat) (expanded count fuel : Nat)
      (tail : List Bool),
      brInv br →
      brBits br = runBits t recs ++ tail →
      (∀ r ∈ recs, recWF r) →
      expanded + (recs.map subConsumed).sum ≤ count →
      count - expanded ≤ fuel →
      ∃ br2 fuel2,
        expandLoopF home count fuel br restored positions expanded =
          expandLoopF home count fuel2 br2
            (restored ++ (List.replicate ((recs.map subConsumed).sum) (chunkFor home t)).flatten)
            (positions ++ (if t = 15 then
              (List.range ((recs.map subConsumed).sum)).map
                (fun i => restored.length + CHUNK_SIZE * i) else []))
            (expanded + (recs.map subConsumed).sum) ∧
        brBits br2 = tail ∧ brInv br2 ∧
        count - (expanded + (recs.map subConsumed).sum) ≤ fuel2 := by
  intro recs
  induction recs with
  | nil =>
    intro br restored positions expanded count fuel tail hinv hbits _ hcnt hfuel
    refine ⟨br, fuel, ?_, by simpa [runBits] using hbits, hinv, by omega⟩
    simp
  | cons r rs ih =>
    intro br restored positions expanded count fuel tail hinv hbits hwf hcnt hfuel
    have hwr : recWF r := hwf r (by simp)
    have hpos : 1 ≤ subConsumed r := subConsumed_pos hwr
    have hsum : ((r :: rs).map subConsumed).sum = subConsumed r + (rs.map subConsumed).sum := by
      simp
    have hlt : ¬ expanded ≥ count := by
      rw [hsum] at hcnt
      omega
    cases fuel with
    | zero => omega
    | succ f =>
      have hrb : brBits br = recBits t r ++ (runBits t rs ++ tail) := by
        rw [hbits]
        simp [runBits, List.append_assoc]
      obtain ⟨br1, e1, b1, i1⟩ := readRecord_spec br t r (runBits t rs ++ tail) hinv ht hwr hrb
      by_cases h15 : t = 15
      · subst h15
        have hcz : chunkFor home 15 = zeroChunk := by simp [chunkFor]
        obtain ⟨br2, fuel2, g1, g2, g3, g4⟩ :=
          ih br1 (restored ++ (List.replicate (subConsumed r) zeroChunk).flatten)
            (positions ++ (List.range (subConsumed r)).map (fun i => restored.length + CHUNK_SIZE * i))
            (expanded + subConsumed r) count f tail i1 b1
            (fun x hx => hwf x (by simp [hx])) (by rw [hsum] at hcnt; omega) (by omega)
        have hzl : (List.replicate (subConsumed r) zeroChunk).flatten.length =
            CHUNK_SIZE * subConsumed r := by
          rw [flatten_replicate_length]
          simp [zeroChunk]
          ring
        have hA : restored ++ (List.replicate (subConsumed r) zeroChunk).flatten ++
            (List.replicate ((rs.map subConsumed).sum) (chunkFor home 15)).flatten =
            restored ++
              (List.replicate ((List.map subConsumed (r :: rs)).sum) (chunkFor home 15)).flatten := by
          rw [hcz, List.append_assoc, ← List.flatten_append, ← List.replicate_add, hsum]
        have hP : positions ++
            (List.range (subConsumed r)).map (fun i => restored.length + CHUNK_SIZE * i) ++
            (if (15 : Nat) = 15 then
              (List.range ((rs.map subConsumed).sum)).map
                (fun i => (restored ++ (List.replicate (subConsumed r) zeroChunk).flatten).length +
                  CHUNK_SIZE * i)
            else []) =
            positions ++ (if (15 : Nat) = 15 then
              (List.range ((List.map subConsumed (r :: rs)).sum)).map
                (fun i => restored.length + CHUNK_SIZE * i) else []) := by
          rw [if_pos rfl, if_pos rfl, List.append_assoc]
          congr 1
          rw [List.length_append, hzl, range_map_shift, hsum]
        have hE : expanded + subConsumed r + (rs.map subConsumed).sum =
            expanded + (List.map subConsumed (r :: rs)).sum := by
          rw [hsum]
          omega
        rw [hA, hP, hE] at g1
        refine ⟨br2, fuel2, ?_, g2, g3, by rw [hsum]; omega⟩
        rw [expandLoopF_step hlt, e1]
        dsimp only
        rw [if_pos rfl, addZeros_spec]
        exact g1
      · obtain ⟨br2, fuel2, g1, g2, g3, g4⟩ :=
          ih br1 (restored ++ (List.replicate (subConsumed r) (home.getD t [])).flatten)
            positions (expanded + subConsumed r) count f tail i1 b1
            (fun x hx => hwf x (by simp [hx])) (by rw [hsum] at hcnt; omega) (by omega)
        have hcg : chunkFor home t = home.getD t [] := by simp [chunkFor, h15]
        have hA : restored ++ (List.replicate (subConsumed r) (home.getD t [])).flatten ++
            (List.replicate ((rs.map subConsumed).sum) (chunkFor home t)).flatten =
            restored ++
              (List.replicate ((List.map subConsumed (r :: rs)).sum) (chunkFor home t)).flatten := by
          rw [hcg, List.append_assoc, ← List.flatten_append, ← List.replicate_add, hsum]
        have hE : expanded + subConsumed r + (rs.map subConsumed).sum =
            expanded + (List.map subConsumed (r :: rs)).sum := by
          rw [hsum]
          omega
        rw [hA, hE, if_neg h15] at g1
        refine ⟨br2, fuel2, ?_, g2, g3, by rw [hsum]; omega⟩
        rw [expandLoopF_step hlt, e1]
        dsimp only
        rw [if_neg h15, addHome_spec]
        rw [if_neg h15]
        rw [List.append_nil] at g1 ⊢
        exact g1

theorem expand_go (home : List (List Nat)) (hh : home.length = 16)
    (hc : ∀ c ∈ home, c.length = CHUNK_SIZE) :
    ∀ N ts (restored positions : List Nat) (expanded count : Nat) (br : BRS) fuel
      (tail : List Bool),
    ts.length ≤ N →
    (∀ t ∈ ts, t < 16) → brInv br →
    brBits br = typesBits ts ++ tail →
    count = expanded + ts.length →
    count - expanded ≤ fuel →
    ∃ br2, expandLoopF home count fuel br restored positions expanded =
      .ok (restored ++ chunksOf home ts, positions ++ posOf ts restored.length, br2) ∧
      brBits br2 = tail ∧ brInv br2 := by
  intro N
  induction N with
  | zero =>
    intro ts restored positions expanded count br fuel tail hN _ hinv hbits hcnt _
    have hts : ts = [] := List.eq_nil_of_length_eq_zero (Nat.le_zero.mp hN)
    subst hts
    simp only [List.length_nil, Nat.add_zero] at hcnt
    rw [expandLoopF_done (by omega)]
    refine ⟨br, ?_, by simpa [typesBits_nil] using hbits, hinv⟩
    simp [chunksOf, posOf]
  | succ N ih =>
    intro ts restored positions expanded count br fuel tail hN hmem hinv hbits hcnt hfuel
    cases ts with
    | nil =>
      simp only [List.length_nil, Nat.add_zero] at hcnt
      rw [expandLoopF_done (by omega)]
      refine ⟨br, ?_, by simpa [typesBits_nil] using hbits, hinv⟩
      simp [chunksOf, posOf]
    | cons t rest =>
      have ht : t < 16 := hmem t (by simp)
      have hrl : runLen t rest ≤ rest.length := length_drop_runLen t rest
      obtain ⟨hsum0, hwf0⟩ := splitRunF_wf (1 + runLen t rest) (1 + runLen t rest) (Nat.le_refl _)
      have hsum : ((splitRun (1 + runLen t rest)).map subConsumed).sum = 1 + runLen t rest := hsum0
      have hwf : ∀ r ∈ splitRun (1 + runLen t rest), recWF r := hwf0
      have hbits2 : brBits br = runBits t (splitRun (1 + runLen t rest)) ++
          (typesBits ((t :: rest).drop (1 + runLen t rest)) ++ tail) := by
        rw [hbits, typesBits_cons, List.append_assoc]
      obtain ⟨br1, fuel1, g1, g2, g3, g4⟩ :=
        expand_run home t ht (splitRun (1 + runLen t rest)) br restored positions expanded count
          fuel (typesBits ((t :: rest).drop (1 + runLen t rest)) ++ tail) hinv hbits2 hwf
          (by rw [hsum]; simp only [List.length_cons] at hcnt; omega) hfuel
      rw [g1, hsum]
      have hdroplen : ((t :: rest).drop (1 + runLen t rest)).length = rest.length - runLen t rest := by
        simp only [List.length_drop, List.length_cons]
        omega
      have hrep : List.replicate (1 + runLen t rest) t ++ (t :: rest).drop (1 + runLen t rest) =
          t :: rest := by
        conv_rhs => rw [← List.take_append_drop (1 + runLen t rest) (t :: rest)]
        congr 1
        rw [show 1 + runLen t rest = runLen t rest + 1 by omega]
        simp only [List.take_succ_cons]
        rw [take_runLen]
        rw [← List.replicate_succ]
      have hlen1 : (restored ++ (List.replicate (1 + runLen t rest) (chunkFor home t)).flatten).length =
          restored.length + CHUNK_SIZE * (1 + runLen t rest) := by
        rw [List.length_append, flatten_replicate_length,
          chunkFor_length home hh hc t ht]
        ring
      obtain ⟨br2, e2, b2, i2⟩ := ih ((t :: rest).drop (1 + runLen t rest))
        (restored ++ (List.replicate (1 + runLen t rest) (chunkFor home t)).flatten)
        (positions ++ (if t = 15 then
          (List.range (1 + runLen t rest)).map (fun i => restored.length + CHUNK_SIZE * i) else []))
        (expanded + (1 + runLen t rest)) count br1 fuel1 tail
        (by rw [hdroplen]; simp only [List.length_cons] at hN; omega)
        (fun x hx => hmem x (List.drop_subset _ _ hx)) g3 g2
        (by simp only [List.length_cons] at hcnt; rw [hdroplen]; omega)
        (by rw [hsum] at g4; exact g4)
      refine ⟨br2, ?_, b2, i2⟩
      rw [e2]
      have hchunks : restored ++ (List.replicate (1 + runLen t rest) (chunkFor home t)).flatten ++
          chunksOf home ((t :: rest).drop (1 + runLen t rest)) =
          restored ++ chunksOf home (t :: rest) := by
        rw [List.append_assoc]
        congr 1
        rw [← chunksOf_replicate, ← chunksOf_append, hrep]
      have hposs : positions ++ (if t = 15 then
            (List.range (1 + runLen t rest)).map (fun i => restored.length + CHUNK_SIZE * i) else []) ++
          posOf ((t :: rest).drop (1 + runLen t rest)) (restored ++
            (List.replicate (1 + runLen t rest) (chunkFor home t)).flatten).length =
          positions ++ posOf (t :: rest) restored.length := by
        rw [List.append_assoc]
        congr 1
        rw [← posOf_replicate t (1 + runLen t rest) restored.length, hlen1,
          show restored.length + CHUNK_SIZE * (1 + runLen t rest) =
            restored.length + CHUNK_SIZE * (List.replicate (1 + runLen t rest) t).length by simp,
          ← posOf_append, hrep]
      rw [hchunks, hposs]

/-! ### Byte-position tracking through the reader -/

theorem read_bits_suffix : ∀ rest bb bl n v r2 bb2 bl2,
    read_bits rest bb bl n = .ok (v, r2, bb2, bl2) → r2 <:+ rest := by
  intro rest
  induction rest with
  | nil =>
    intro bb bl n v r2 bb2 bl2 h
    rw [read_bits.eq_def] at h
    dsimp only at h
    split at h
    · cases h
    · cases h
      exact List.suffix_refl _
  | cons b r ih =>
    intro bb bl n v r2 bb2 bl2 h
    rw [read_bits.eq_def] at h
    dsimp only at h
    split at h
    · exact (ih _ _ _ _ _ _ _ h).trans (List.suffix_cons b r)
    · cases h
      exact List.suffix_refl _

theorem read_bits_bl_le : ∀ rest bb bl n v r2 bb2 bl2,
    read_bits rest bb bl n = .ok (v, r2, bb2, bl2) → bl2 ≤ max (bl - n) 7 := by
  intro rest
  induction rest with
  | nil =>
    intro bb bl n v r2 bb2 bl2 h
    rw [read_bits.eq_def] at h
    dsimp only at h
    split at h
    · cases h
    · cases h
      omega
  | cons b r ih =>
    intro bb bl n v r2 bb2 bl2 h
    rw [read_bits.eq_def] at h
    dsimp only at h
    split at h
    · rename_i hlt
      have := ih _ _ _ _ _ _ _ h
      omega
    · cases h
      omega

theorem BRS_read_pos {br : BRS} {n v : Nat} {br2 : BRS} (h : br.read n = .ok (v, br2)) :
    br2.rest <:+ br.rest ∧ br2.bitlen ≤ max (br.bitlen - n) 7 := by
  simp only [BRS.read] at h
  split at h
  · cases h
  · cases h
    rename_i heq
    exact ⟨read_bits_suffix _ _ _ _ _ _ _ _ heq, read_bits_bl_le _ _ _ _ _ _ _ _ heq⟩

theorem readRecord_pos_state {br : BRS} {t run : Nat} {br2 : BRS}
    (h : readRecord br = .ok (t, run, br2)) :
    br2.rest <:+ br.rest ∧ (br.bitlen < 8 → br2.bitlen < 8) := by
  simp only [readRecord, bind, Except.bind] at h
  split at h
  · cases h
  · rename_i p heq
    obtain ⟨tv, brA⟩ := p
    have h1 := BRS_read_pos heq
    split at h
    · cases h
    · rename_i q heq2
      obtain ⟨F, brB⟩ := q
      have h2 := BRS_read_pos heq2
      split at h
      · split at h
        · cases h
        · rename_i q3 heq3
          obtain ⟨rm1, brC⟩ := q3
          have h3 := BRS_read_pos heq3
          cases h
          dsimp only at h1 h2 h3 ⊢
          exact ⟨(h3.1.trans h2.1).trans h1.1, by omega⟩
      · split at h
        · cases h
        · rename_i q3 heq3
          obtain ⟨sm1, brC⟩ := q3
          have h3 := BRS_read_pos heq3
          split at h
          · cases h
          · rename_i q4 heq4
            obtain ⟨M, brD⟩ := q4
            have h4 := BRS_read_pos heq4
            cases h
            dsimp only at h1 h2 h3 h4 ⊢
            exact ⟨((h4.1.trans h3.1).trans h2.1).trans h1.1, by omega⟩

theorem expandLoopF_pos (home : List (List Nat)) (count : Nat) :
    ∀ fuel (br : BRS) (restored positions : List Nat) (expanded : Nat) res pos br2,
    expandLoopF home count fuel br restored positions expanded = .ok (res, pos, br2) →
    br2.rest <:+ br.rest ∧ (br.bitlen < 8 → br2.bitlen < 8) := by
  intro fuel
  induction fuel with
  | zero =>
    intro br restored positions expanded res pos br2 h
    rw [expandLoopF.eq_def] at h
    dsimp only at h
    split at h
    · cases h
      exact ⟨List.suffix_refl _, fun hh => hh⟩
    · cases h
  | succ f ih =>
    intro br restored positions expanded res pos br2 h
    rw [expandLoopF.eq_def] at h
    dsimp only at h
    split at h
    · cases h
      exact ⟨List.suffix_refl _, fun hh => hh⟩
    · cases hr : readRecord br with
      | error e => rw [hr] at h; cases h
      | ok v =>
        obtain ⟨t, run, brA⟩ := v
        have hp := readRecord_pos_state hr
        rw [hr] at h
        dsimp only at h
        split at h
        · have := ih _ _ _ _ _ _ _ h
          exact ⟨this.1.trans hp.1, fun hh => this.2 (hp.2 hh)⟩
        · have := ih _ _ _ _ _ _ _ h
          exact ⟨this.1.trans hp.1, fun hh => this.2 (hp.2 hh)⟩

theorem scanMarkerF_pos : ∀ fuel (br : BRS) (ones : Nat),
    (scanMarkerF fuel br ones).rest <:+ br.rest ∧
    (br.bitlen < 8 → (scanMarkerF fuel br ones).bitlen < 8) := by
  intro fuel
  induction fuel with
  | zero =>
    intro br ones
    rw [scanMarkerF.eq_def]
    dsimp only
    split
    · exact ⟨List.suffix_refl _, fun h => h⟩
    · exact ⟨List.suffix_refl _, fun h => h⟩
  | succ f ih =>
    intro br ones
    rw [scanMarkerF.eq_def]
    dsimp only
    split
    · exact ⟨List.suffix_refl _, fun h => h⟩
    · cases hr : br.read 1 with
      | error e => exact ⟨List.suffix_refl _, fun h => h⟩
      | ok v =>
        obtain ⟨b, br2⟩ := v
        have hp := BRS_read_pos hr
        have := ih br2 (if b = 1 then ones + 1 else 0)
        exact ⟨this.1.trans hp.1, fun hh => this.2 (by omega)⟩

theorem scan_marker_exact : ∀ j fuel (br : BRS) (rest2 : List Bool),
    j ≤ 9 → brInv br → brBits br = List.replicate j true ++ rest2 → j < fuel →
    brBits (scanMarkerF fuel br (9 - j)) = rest2 ∧ brInv (scanMarkerF fuel br (9 - j)) ∧
    availBits (scanMarkerF fuel br (9 - j)) + j = availBits br := by
  intro j
  induction j with
  | zero =>
    intro fuel br rest2 _ hinv hbits _
    have he : scanMarkerF fuel br (9 - 0) = br := by
      rw [scanMarkerF.eq_def]
      dsimp only
      rw [if_pos (by omega)]
    rw [he]
    exact ⟨by simpa using hbits, hinv, by omega⟩
  | succ j ih =>
    intro fuel br rest2 hj hinv hbits hfuel
    cases fuel with
    | zero => omega
    | succ f =>
      have hb : brBits br = natBits 1 1 ++ (List.replicate j true ++ rest2) := by
        rw [hbits, List.replicate_succ]
        have : natBits 1 1 = [true] := by decide
        rw [this]
        rfl
      obtain ⟨br2, e1, b1, i1⟩ := BRS_read_field br 1 1 _ hinv (by norm_num) hb
      have hav := BRS_read_avail e1
      have he : scanMarkerF (f + 1) br (9 - (j + 1)) = scanMarkerF f br2 (9 - j) := by
        rw [scanMarkerF.eq_def]
        dsimp only
        rw [if_neg (by omega), e1]
        dsimp only
        rw [if_pos rfl]
        congr 1
        omega
      rw [he]
      obtain ⟨g1, g2, g3⟩ := ih f br2 rest2 (by omega) i1 b1 (by omega)
      exact ⟨g1, g2, by omega⟩

theorem suffix_eq_len {α : Type} {l1 l2 data : List α} (h1 : l1 <:+ data) (h2 : l2 <:+ data)
    (h : l1.length = l2.length) : l1 = l2 := by
  obtain ⟨t1, ht1⟩ := h1
  obtain ⟨t2, ht2⟩ := h2
  have e1 : data.drop t1.length = l1 := by rw [← ht1]; exact List.drop_left _ _
  have e2 : data.drop t2.length = l2 := by rw [← ht2]; exact List.drop_left _ _
  have hlen : t1.length = t2.length := by
    have hl1 : t1.length + l1.length = data.length := by rw [← ht1]; simp
    have hl2 : t2.length + l2.length = data.length := by rw [← ht2]; simp
    omega
  rw [← e1, ← e2, hlen]

theorem splitChunksF_chunks : ∀ (cl : List (List Nat)) fuel,
    (∀ c ∈ cl, c.length = CHUNK_SIZE) → cl.flatten.length ≤ fuel →
    splitChunksF fuel cl.flatten = cl := by
  intro cl
  induction cl with
  | nil => intro fuel _ _; cases fuel <;> rfl
  | cons c rest ih =>
    intro fuel hc hlen
    have hcl : c.length = CHUNK_SIZE := hc c (by simp)
    have hflat : (c :: rest).flatten = c ++ rest.flatten := by simp
    rw [hflat] at hlen ⊢
    have hpos : 0 < fuel := by
      simp only [List.length_append, hcl, CHUNK_SIZE] at hlen
      omega
    cases c with
    | nil => simp [CHUNK_SIZE] at hcl
    | cons x xs =>
      cases fuel with
      | zero => omega
      | succ f =>
        rw [show ((x :: xs) ++ rest.flatten) = x :: (xs ++ rest.flatten) by simp]
        rw [splitChunksF.eq_def]
        dsimp only
        have htake : (x :: (xs ++ rest.flatten)).take CHUNK_SIZE = x :: xs := by
          rw [show (x :: (xs ++ rest.flatten)) = (x :: xs) ++ rest.flatten by simp]
          exact List.take_left' hcl
        have hdrop : (x :: (xs ++ rest.flatten)).drop CHUNK_SIZE = rest.flatten := by
          rw [show (x :: (xs ++ rest.flatten)) = (x :: xs) ++ rest.flatten by simp]
          exact List.drop_left' hcl
        rw [htake, hdrop]
        congr 1
        refine ih f (fun y hy => hc y (by simp [hy])) ?_
        simp only [List.length_cons, List.length_append] at hlen
        simp only [CHUNK_SIZE] at hcl
        omega

theorem splitChunks_chunks (cl : List (List Nat)) (hc : ∀ c ∈ cl, c.length = CHUNK_SIZE) :
    splitChunks cl.flatten = cl :=
  splitChunksF_chunks cl _ hc (Nat.le_refl _)

theorem typeOf_lt (home : List (List Nat)) (hh : home.length = 16) (c : List Nat) :
    typeOf home c < 16 := by
  cases h : lastIdx home c with
  | none => simp [typeOf, h]
  | some i =>
    have := (lastIdx_getD home c i h).1
    simp only [typeOf, h]
    omega

theorem patch_restore (home : List (List Nat)) :
    ∀ (cl : List (List Nat)) (pre : List Nat),
      (∀ c ∈ cl, c.length = CHUNK_SIZE) →
      (∀ c ∈ cl, c ≠ home.getD 15 []) →
      patch (posOf (cl.map (typeOf home)) pre.length)
        (cl.filter (fun c => (lastIdx home c).isNone))
        (pre ++ chunksOf home (cl.map (typeOf home))) = pre ++ cl.flatten := by
  intro cl
  induction cl with
  | nil => intro pre _ _; simp [posOf, chunksOf, patch]
  | cons c rest ih =>
    intro pre hlen h15
    have hc18 : c.length = CHUNK_SIZE := hlen c (by simp)
    have hlen2 : (pre ++ c).length = pre.length + CHUNK_SIZE := by simp [hc18]
    cases hla : lastIdx home c with
    | none =>
      have ht : typeOf home c = 15 := by simp [typeOf, hla]
      have hmapc : (c :: rest).map (typeOf home) = 15 :: rest.map (typeOf home) := by
        simp [ht]
      rw [hmapc]
      have hpos : posOf (15 :: rest.map (typeOf home)) pre.length =
          pre.length :: posOf (rest.map (typeOf home)) (pre.length + CHUNK_SIZE) := by
        simp [posOf]
      have hfil : (c :: rest).filter (fun c => (lastIdx home c).isNone) =
          c :: rest.filter (fun c => (lastIdx home c).isNone) := by
        rw [List.filter_cons, if_pos (by simp [hla])]
      have hch : chunksOf home (15 :: rest.map (typeOf home)) =
          zeroChunk ++ chunksOf home (rest.map (typeOf home)) := by
        simp [chunksOf, chunkFor]
      rw [hpos, hfil, hch, patch]
      have hsplice : splice (pre ++ (zeroChunk ++ chunksOf home (rest.map (typeOf home))))
          pre.length c = (pre ++ c) ++ chunksOf home (rest.map (typeOf home)) := by
        rw [splice]
        have htk : (pre ++ (zeroChunk ++ chunksOf home (rest.map (typeOf home)))).take pre.length
            = pre := List.take_left' rfl
        have hdr : (pre ++ (zeroChunk ++ chunksOf home (rest.map (typeOf home)))).drop
            (pre.length + CHUNK_SIZE) = chunksOf home (rest.map (typeOf home)) := by
          rw [show pre ++ (zeroChunk ++ chunksOf home (rest.map (typeOf home))) =
            (pre ++ zeroChunk) ++ chunksOf home (rest.map (typeOf home)) by simp]
          refine List.drop_left' ?_
          simp [zeroChunk]
        rw [htk, hdr]
      rw [hsplice]
      have := ih (pre ++ c) (fun y hy => hlen y (by simp [hy])) (fun y hy => h15 y (by simp [hy]))
      rw [hlen2] at this
      rw [this]
      simp
    | some i =>
      have hgd := lastIdx_getD home c i hla
      have hi15 : i ≠ 15 := by
        intro hi
        subst hi
        exact (h15 c (by simp)) hgd.2.symm
      have ht : typeOf home c = i := by simp [typeOf, hla]
      have hmapc : (c :: rest).map (typeOf home) = i :: rest.map (typeOf home) := by
        simp [ht]
      rw [hmapc]
      have hpos : posOf (i :: rest.map (typeOf home)) pre.length =
          posOf (rest.map (typeOf home)) (pre.length + CHUNK_SIZE) := by
        simp [posOf, hi15]
      have hfil : (c :: rest).filter (fun c => (lastIdx home c).isNone) =
          rest.filter (fun c => (lastIdx home c).isNone) := by
        rw [List.filter_cons, if_neg (by simp [hla])]
      have hch : chunksOf home (i :: rest.map (typeOf home)) =
          c ++ chunksOf home (rest.map (typeOf home)) := by
        simp only [chunksOf, List.map_cons, List.flatten_cons]
        congr 1
        rw [chunkFor, if_neg hi15, hgd.2]
      rw [hpos, hfil, hch]
      have := ih (pre ++ c) (fun y hy => hlen y (by simp [hy])) (fun y hy => h15 y (by simp [hy]))
      rw [hlen2] at this
      rw [show pre ++ (c ++ chunksOf home (rest.map (typeOf home))) =
        (pre ++ c) ++ chunksOf home (rest.map (typeOf home)) by simp]
      rw [this]
      simp

theorem availBits_eq (br : BRS) : availBits br = (brBits br).length :=
  (brBits_length br).symm

theorem natBits_511 : natBits 511 9 = List.replicate 9 true := by decide

/-- The positive side of the round-trip story: for any world whose derived
home table has 16 entries of 18 bytes, any inverse pair of extras
transforms producing nonempty byte output on nonempty input, and any input
none of whose padded chunks is byte-identical to `HomeTable[15]` (the slip
behind the failing inputs), a successful `compress` is inverted exactly by
`decompress`. -/
theorem compress_decompress_roundtrip
    (home : List (List Nat)) (gzC gzD : List Nat → List Nat) (input out : List Nat)
    (hh : home.length = 16)
    (hc : ∀ c ∈ home, c.length = CHUNK_SIZE)
    (hgz : ∀ b, gzD (gzC b) = b)
    (hgzne : ∀ b, b ≠ [] → gzC b ≠ [])
    (hgz256 : ∀ b, ∀ x ∈ gzC b, x < 256)
    (h15 : ∀ c ∈ (chunk_file input).1, c ≠ home.getD 15 [])
    (hcomp : compress home gzC input = some out) :
    decompress home gzD out = .ok input := by
  classical
  obtain ⟨chunks, L, hcf⟩ : ∃ a b, chunk_file input = (a, b) := ⟨_, _, rfl⟩
  have hL : L = input.length := by
    have : (chunk_file input).2 = input.length := rfl
    rw [hcf] at this
    exact this
  set ts := chunks.map (typeOf home) with hts
  set extras := chunks.filter (fun c => (lastIdx home c).isNone) with hextras
  have hclassify : classify home chunks = (ts, extras) := classify_eq home chunks
  set blob := if extras = [] then [] else gzC extras.flatten with hblob
  -- unpack the compress equation and its size guard
  rw [compress] at hcomp
  rw [hcf, hclassify] at hcomp
  simp only at hcomp
  rw [← hblob] at hcomp
  split at hcomp
  case isFalse => cases hcomp
  case isTrue hguard =>
  obtain ⟨hn32, hL64, hb32⟩ := hguard
  have hout : out = packLE 4 chunks.length ++ (packLE 8 L ++ (mkBitstream ts ++ (packLE 4 blob.length ++ blob))) := by
    have := Option.some.inj hcomp
    rw [← this]
    simp [List.append_assoc]
  -- facts about the chunk list
  have hch_eq : chunks = splitChunks (input ++ List.replicate (((-(input.length : Int)) % (CHUNK_SIZE : Int)).toNat) 0) := by
    have h1 : (chunk_file input).1 = splitChunks (input ++ List.replicate (((-(input.length : Int)) % (CHUNK_SIZE : Int)).toNat) 0) := rfl
    rw [hcf] at h1
    exact h1
  have hdvd : CHUNK_SIZE ∣ (input ++ List.replicate (((-(input.length : Int)) % (CHUNK_SIZE : Int)).toNat) 0).length := by
    have : CHUNK_SIZE ∣ input.length + (((-(input.length : Int)) % (CHUNK_SIZE : Int)).toNat) := by
      simp only [CHUNK_SIZE]
      omega
    simpa using this
  have hchlen : ∀ c ∈ chunks, c.length = CHUNK_SIZE := by
    rw [hch_eq]
    intro c hcm
    exact splitChunksF_lengths _ _ (Nat.le_refl _) hdvd c hcm
  have hflat : chunks.flatten = input ++ List.replicate (((-(input.length : Int)) % (CHUNK_SIZE : Int)).toNat) 0 := by
    rw [hch_eq]
    exact splitChunks_flatten _
  have h15c : ∀ c ∈ chunks, c ≠ home.getD 15 [] := by
    intro c hcm
    exact h15 c (by rw [hcf]; exact hcm)
  have htslt : ∀ t ∈ ts, t < 16 := by
    intro t htm
    rw [hts] at htm
    obtain ⟨c, _, hct⟩ := List.mem_map.mp htm
    rw [← hct]
    exact typeOf_lt home hh c
  have htslen : ts.length = chunks.length := by simp [hts]
  -- container field decomposition
  obtain ⟨padding, epad, hm256, hpadlt⟩ := mkBitstream_spec ts
  have htake4 : out.take 4 = packLE 4 chunks.length := by
    rw [hout]
    exact List.take_left' (packLE_length 4 _)
  have hdrop4 : out.drop 4 = packLE 8 L ++ (mkBitstream ts ++ (packLE 4 blob.length ++ blob)) := by
    rw [hout]
    exact List.drop_left' (packLE_length 4 _)
  have htake8 : (out.drop 4).take 8 = packLE 8 L := by
    rw [hdrop4]
    exact List.take_left' (packLE_length 8 _)
  have hdrop12 : out.drop 12 = mkBitstream ts ++ (packLE 4 blob.length ++ blob) := by
    rw [hout, show packLE 4 chunks.length ++ (packLE 8 L ++ (mkBitstream ts ++ (packLE 4 blob.length ++ blob))) = (packLE 4 chunks.length ++ packLE 8 L) ++ (mkBitstream ts ++ (packLE 4 blob.length ++ blob)) by simp]
    exact List.drop_left' (by simp [packLE_length])
  have hcount : leVal (out.take 4) = chunks.length := by
    rw [htake4]
    exact leVal_packLE 4 _ (by norm_num; omega)
  have hLval : leVal ((out.drop 4).take 8) = L := by
    rw [htake8]
    exact leVal_packLE 8 _ (by norm_num; omega)
  have hlen12 : ¬ (out.length < 12) := by
    rw [hout]
    simp [packLE_length]
    omega
  -- initial reader state
  set E : List Nat := packLE 4 blob.length ++ blob with hE
  have hE256 : ∀ x ∈ E, x < 256 := by
    intro x hx
    rcases List.mem_append.mp hx with hx | hx
    · exact packLE_bytes _ _ x hx
    · rw [hblob] at hx
      split at hx
      · cases hx
      · exact hgz256 _ x hx
  set br0 : BRS := ⟨out.drop 12, 0, 0⟩ with hbr0
  have hinv0 : brInv br0 := by
    refine ⟨by norm_num, ?_⟩
    intro b hb
    rw [hbr0] at hb
    simp only at hb
    rw [hdrop12] at hb
    rcases List.mem_append.mp hb with hb | hb
    · exact hm256 b hb
    · exact hE256 b hb
  have hbits0 : brBits br0 = typesBits ts ++ (natBits 511 9 ++ (padding ++ bytesBits E)) := by
    have h00 : brBits br0 = bytesBits (out.drop 12) := by
      rw [hbr0]
      rfl
    rw [h00, hdrop12, bytesBits_append, epad]
    simp [List.append_assoc]
  -- run the expansion
  obtain ⟨br2, hexp, hbits2, hinv2⟩ := expand_go home hh hc ts.length ts [] [] 0 chunks.length
    br0 chunks.length (natBits 511 9 ++ (padding ++ bytesBits E)) (Nat.le_refl _) htslt hinv0
    hbits0 (by omega) (by omega)
  have hexp2 : expandLoopF home chunks.length chunks.length br0 [] [] 0 =
      .ok (chunksOf home ts, posOf ts 0, br2) := by
    rw [hexp]
    simp [posOf]
  -- scan the end marker: exactly nine one-bits are consumed
  have hb2marker : brBits br2 = List.replicate 9 true ++ (padding ++ bytesBits E) := by
    rw [hbits2, natBits_511]
  have havail2 : 9 < availBits br2 + 1 := by
    rw [availBits_eq, hb2marker]
    simp
  set br3 := scanMarker br2 with hbr3
  have hscan := scan_marker_exact 9 (availBits br2 + 1) br2 (padding ++ bytesBits E)
    (by omega) hinv2 hb2marker (by omega)
  have hbits3 : brBits br3 = padding ++ bytesBits E := hscan.1
  -- byte re-alignment after the scan
  have hpos2 := expandLoopF_pos home chunks.length chunks.length br0 [] [] 0 _ _ _ hexp2
  have hpos3 := scanMarkerF_pos (availBits br2 + 1) br2 0
  have hsuffix3 : br3.rest <:+ br0.rest := hpos3.1.trans hpos2.1
  have hbl3 : br3.bitlen < 8 := hpos3.2 (hpos2.2 (by rw [hbr0]; norm_num))
  have havail3 : availBits br3 = padding.length + 8 * (4 + blob.length) := by
    rw [availBits_eq, hbits3]
    simp [bytesBits_length, hE, packLE_length]
  have hrest3len : br3.rest.length = 4 + blob.length := by
    have h1 : availBits br3 = br3.bitlen + 8 * br3.rest.length := rfl
    omega
  have hEsuffix : E <:+ br0.rest := by
    refine ⟨mkBitstream ts, ?_⟩
    rw [hbr0]
    rw [hdrop12]
  have hrest3 : br3.rest = E := by
    refine suffix_eq_len hsuffix3 hEsuffix ?_
    rw [hrest3len, hE]
    simp [packLE_length]
  -- extras length and blob recovered from the trailer
  have htk4 : br3.rest.take 4 = packLE 4 blob.length := by
    rw [hrest3, hE]
    exact List.take_left' (packLE_length 4 _)
  have hdr4 : br3.rest.drop 4 = blob := by
    rw [hrest3, hE]
    exact List.drop_left' (packLE_length 4 _)
  have helen : leVal (br3.rest.take 4) = blob.length := by
    rw [htk4]
    refine leVal_packLE 4 _ ?_
    norm_num
    omega
  have hblob2 : (br3.rest.drop 4).take (leVal (br3.rest.take 4)) = blob := by
    rw [helen, hdr4]
    exact List.take_length blob
  have hnot4 : ¬ (br3.rest.length < 4) := by
    rw [hrest3len]
    omega
  -- the pieces recovered from the blob are exactly the extras chunks
  have hextraslen : ∀ c ∈ extras, c.length = CHUNK_SIZE := by
    intro c hcm
    exact hchlen c (List.mem_of_mem_filter hcm)
  have hpieces :
      splitChunks (if (br3.rest.drop 4).take (leVal (br3.rest.take 4)) = [] then []
        else gzD ((br3.rest.drop 4).take (leVal (br3.rest.take 4)))) = extras := by
    rw [hblob2]
    by_cases hex : extras = []
    · have hb0 : blob = [] := by rw [hblob, if_pos hex]
      rw [hb0, if_pos rfl, hex]
      rfl
    · have hfne : extras.flatten ≠ [] := by
        cases hx : extras with
        | nil => exact absurd hx hex
        | cons e r =>
          have hel : e.length = CHUNK_SIZE :=
            hextraslen e (by rw [hx]; exact List.mem_cons_self e r)
          simp only [List.flatten_cons, ne_eq, List.append_eq_nil]
          intro hcontra
          rw [hcontra.1] at hel
          simp [CHUNK_SIZE] at hel
      have hbne : blob ≠ [] := by
        rw [hblob, if_neg hex]
        exact hgzne _ hfne
      rw [if_neg hbne]
      have hgd : gzD blob = extras.flatten := by
        rw [hblob, if_neg hex]
        exact hgz _
      rw [hgd]
      exact splitChunks_chunks extras hextraslen
  -- patching the Type-15 positions restores all original chunks
  have hpatch : patch (posOf ts 0) extras (chunksOf home ts) = chunks.flatten := by
    have hp := patch_restore home chunks [] hchlen h15c
    simp only [List.length_nil, List.nil_append] at hp
    rw [← hts, ← hextras] at hp
    exact hp
  -- assemble the decompress run
  rw [decompress.eq_def, if_neg hlen12]
  dsimp only
  rw [hcount, ← hbr0, hexp2]
  dsimp only
  rw [← hbr3, if_neg hnot4]
  rw [hLval, hL]
  by_cases hpos0 : posOf ts 0 = []
  · rw [if_pos hpos0]
    have h0 := hpatch
    rw [hpos0] at h0
    have hpe : chunksOf home ts = chunks.flatten := h0
    rw [hpe, hflat, List.take_left]
  · rw [if_neg hpos0, hpieces, hpatch, hflat, List.take_left]

theorem unaryDec_block (r : List Nat) :
    ∀ n acc, unaryDec (List.replicate n 1 ++ 0 :: r) acc = (acc + n) :: unaryDec r 0 := by
  intro n
  induction n with
  | zero =>
    intro acc
    simp [unaryDec]
  | succ n ih =>
    intro acc
    simp only [List.replicate_succ, List.cons_append, unaryDec]
    rw [if_neg (by norm_num)]
    simp only [List.append_eq]
    rw [ih (acc + 1)]
    have h1 : acc + 1 + n = acc + (n + 1) := by omega
    rw [h1]

theorem unaryDec_enc (b : List Nat) : unaryDec (unaryEnc b) 0 = b := by
  induction b with
  | nil => rfl
  | cons x r ih =>
    simp only [unaryEnc] at ih ⊢
    rw [List.flatMap_cons, List.append_assoc, List.singleton_append, unaryDec_block, ih]
    simp

theorem unaryEnc_ne (b : List Nat) (hb : b ≠ []) : unaryEnc b ≠ [] := by
  cases b with
  | nil => exact absurd rfl hb
  | cons x r => simp [unaryEnc]

theorem unaryEnc_bytes (b : List Nat) : ∀ x ∈ unaryEnc b, x < 256 := by
  intro x hx
  simp only [unaryEnc, List.mem_flatMap] at hx
  obtain ⟨n, _, hx⟩ := hx
  rcases List.mem_append.mp hx with hx | hx
  · rw [List.eq_of_mem_replicate hx]
    norm_num
  · simp only [List.mem_singleton] at hx
    omega

/-- The conditional roundtrip theorem instantiated at the concrete home table,
the concrete invertible extras transform `unaryEnc`/`unaryDec`, and a concrete
19-byte input with one dictionary chunk and one extras chunk: the hypotheses of
`compress_decompress_roundtrip` are simultaneously satisfiable and the
roundtrip concretely holds. -/
theorem compress_decompress_roundtrip_example :
    compress testHome unaryEnc (List.replicate 18 1 ++ [7]) =
      some [2, 0, 0, 0, 19, 0, 0, 0, 0, 0, 0, 0, 0, 15, 255, 1, 25, 0, 0, 0,
        1, 1, 1, 1, 1, 1, 1, 0, 0, 0, 0, 0, 0, 0, 0, 0, 0, 0, 0, 0, 0, 0, 0, 0, 0] ∧
    decompress testHome (fun b => unaryDec b 0)
      [2, 0, 0, 0, 19, 0, 0, 0, 0, 0, 0, 0, 0, 15, 255, 1, 25, 0, 0, 0,
        1, 1, 1, 1, 1, 1, 1, 0, 0, 0, 0, 0, 0, 0, 0, 0, 0, 0, 0, 0, 0, 0, 0, 0, 0] =
      .ok (List.replicate 18 1 ++ [7]) := by
  refine ⟨by decide, ?_⟩
  exact compress_decompress_roundtrip testHome unaryEnc (fun b => unaryDec b 0) _ _
    (by decide) (by decide) unaryDec_enc unaryEnc_ne unaryEnc_bytes (by decide) (by decide)
